import Mathlib

/-!
Verification development for `panel/pane/plotly.py` (the `Plotly` pane).

We shallowly embed the plotly-pane synchronization logic: the JSON value
model of plotly figures (traces, layouts), the bulk-array extractor
`_get_sources_for_trace`, the datetime normalization `_plotly_json_wrapper`,
the diff engine `_update`, the initial render `_init_params`, the event
router `_send_update_msg` and the inbound handlers, and the preprocessing
hook `_patch_tabs_plotly`.

Modelling conventions:
* numpy arrays become `List Elem` under the `Val.arr` constructor, Python
  lists become `Val.plist`, dicts become ordered association lists
  (`Val.dict`) whose keys are unique in every value produced by the code;
  dict equality is modelled as ordered-entry equality (the serializer
  emits entries deterministically, so two identical renders agree on order).
* Python code that would raise (e.g. recursing into a non-dict element of a
  list whose first element is a dict) is modelled with `Option`, `none`
  standing for the raised exception.
-/

namespace PanelPlotly

/-- A scalar element of a plotly JSON payload: plain numbers, datetime
values (abstracted to an integer timestamp), strings and booleans. -/
inductive Elem where
  | int (n : Int)
  | dt (t : Int)
  | str (s : String)
  | boolean (b : Bool)
deriving DecidableEq, Repr

/-- A plotly JSON value: a numpy bulk array (`arr`), a Python list
(`plist`), a scalar, or a dict as an ordered association list. -/
inductive Val where
  | arr (a : List Elem)
  | plist (l : List Val)
  | scalar (e : Elem)
  | dict (entries : List (String × Val))

/-- Entries of a dict: a trace or a layout is one of these. -/
abbrev Entries := List (String × Val)

mutual

/-- Structural equality of plotly JSON values, embedding Python `==`/`!=`
on the serialized figure (dict entries compared in order: the serializer
emits them deterministically). -/
def Val.beq : Val → Val → Bool
  | .arr a, .arr b => decide (a = b)
  | .scalar x, .scalar y => decide (x = y)
  | .plist l, .plist m => Val.beqList l m
  | .dict d, .dict e => Val.beqEntries d e
  | _, _ => false

/-- Elementwise `Val.beq` on lists. -/
def Val.beqList : List Val → List Val → Bool
  | [], [] => true
  | x :: xs, y :: ys => Val.beq x y && Val.beqList xs ys
  | _, _ => false

/-- Entrywise `Val.beq` on dict entry lists. -/
def Val.beqEntries : Entries → Entries → Bool
  | [], [] => true
  | (k, v) :: xs, (k', v') :: ys =>
    decide (k = k') && Val.beq v v' && Val.beqEntries xs ys
  | _, _ => false

end


/-- A per-trace columnar buffer (the `data` of a `ColumnDataSource`):
maps a dotted key path to a column list, which the code always fills
with a single-element list wrapping the extracted array. -/
abbrev Buf := List (String × List (List Elem))

/-- Python dict assignment `d[k] = v`: overwrite in place if the key is
present (keeping its position), otherwise append at the end. -/
def assocSet {α : Type} (d : List (String × α)) (k : String) (v : α) :
    List (String × α) :=
  match d with
  | [] => [(k, v)]
  | (k', v') :: rest =>
    if k' = k then (k, v) :: rest else (k', v') :: assocSet rest k v

/-- Python dict lookup `d.get(k)`. -/
def assocFind {α : Type} (d : List (String × α)) (k : String) : Option α :=
  match d with
  | [] => none
  | (k', v) :: rest => if k' = k then some v else assocFind rest k

/-- Path concatenation from `_get_sources_for_trace`:
`full_path = key if not parent_path else "{}.{}".format(parent_path, key)`. -/
def childPath (pp k : String) : String :=
  if pp = "" then k else pp ++ "." ++ k

mutual

/-- `Plotly._get_sources_for_trace(json, data, parent_path)` on the entry
list of a dict, returning the mutated dict (arrays popped) and the mutated
buffer. `none` models the `AttributeError` Python raises when the code
recurses into a non-dict element of a list whose first element is a dict. -/
def gsEntries : Entries → Buf → String → Option (Entries × Buf)
  | [], data, _ => some ([], data)
  | (k, v) :: rest, data, pp =>
    let fp := childPath pp k
    match v with
    | .arr a =>
      -- data[full_path] = [json.pop(key)]
      gsEntries rest (assocSet data fp [a]) pp
    | .dict es =>
      -- recurse into dictionaries
      match gsEntries es data fp with
      | some (es', d1) =>
        match gsEntries rest d1 pp with
        | some (rest', d2) => some ((k, Val.dict es') :: rest', d2)
        | none => none
      | none => none
    | .plist l =>
      match l with
      | Val.dict e0 :: tail =>
        -- recurse into object arrays (list whose first element is a dict)
        match gsElems (Val.dict e0 :: tail) 0 data fp with
        | some (l', d1) =>
          match gsEntries rest d1 pp with
          | some (rest', d2) => some ((k, Val.plist l') :: rest', d2)
          | none => none
        | none => none
      | _ =>
        match gsEntries rest data pp with
        | some (rest', d') => some ((k, v) :: rest', d')
        | none => none
    | .scalar e =>
      match gsEntries rest data pp with
      | some (rest', d') => some ((k, Val.scalar e) :: rest', d')
      | none => none

/-- The `for i, element in enumerate(value)` loop of
`_get_sources_for_trace`, visiting list elements by index with path suffix
`.{i}`; a non-dict element makes the Python code raise (`none`). -/
def gsElems : List Val → Nat → Buf → String → Option (List Val × Buf)
  | [], _, data, _ => some ([], data)
  | e :: tail, i, data, fp =>
    match e with
    | .dict es =>
      match gsEntries es data (fp ++ "." ++ toString i) with
      | some (es', d1) =>
        match gsElems tail (i + 1) d1 fp with
        | some (tail', d2) => some (Val.dict es' :: tail', d2)
        | none => none
      | none => none
    | _ => none

end

/-- A serialized figure (`fig.to_plotly_json()`): a trace list and a layout. -/
structure Fig where
  data : List Entries
  layout : Entries

/-- Modelled from the spec: `panel.util.isdatetime` (imported by the module
but not part of this repository) — true for "any array or list value at a
leaf whose element type is a date/time type". -/
def isdatetime : Val → Bool
  | .arr a =>
    !a.isEmpty && a.all fun e => match e with | .dt _ => true | _ => false
  | .plist l =>
    !l.isEmpty && l.all fun v =>
      match v with | .scalar (.dt _) => true | _ => false
  | _ => false

/-- Modelled from the spec: Python `str(v)` / numpy `astype(str)` on one
element — "converted to a list/array of string representations". The exact
rendering is immaterial; only that the result is string-typed. -/
def strOfElem : Elem → String
  | .int n => toString n
  | .dt t => String.append "datetime64-" (toString t)
  | .str s => s
  | .boolean b => toString b

/-- The conversion branch of `_plotly_json_wrapper`: if the value is
datetime-typed, an ndarray is `astype(str)`-converted, anything else is
rebuilt as `[str(v) for v in arr]`. -/
def normalizeDatetime (v : Val) : Val :=
  if isdatetime v then
    match v with
    | .arr a => .arr (a.map fun e => .str (strOfElem e))
    | .plist l =>
      .plist (l.map fun w =>
        match w with
        | .scalar e => .scalar (.str (strOfElem e))
        | w => w)
    | w => w
  else v

/-- `Plotly._plotly_json_wrapper`: maps datetime elements to strings, for
each trace and each of its top-level keys. -/
def plotlyJsonWrapper (fig : Fig) : Fig :=
  { fig with
    data := fig.data.map fun tr => tr.map fun kv => (kv.1, normalizeDatetime kv.2) }

/-- `Plotly._get_sources`: one `ColumnDataSource` per trace, filled by
`_get_sources_for_trace`, which also strips the arrays out of the traces
in place; returns (stripped traces, buffers). -/
def getSources : List Entries → Option (List Entries × List Buf)
  | [] => some ([], [])
  | t :: ts =>
    match gsEntries t [] "" with
    | some (t', buf) =>
      match getSources ts with
      | some (ts', bufs) => some (t' :: ts', buf :: bufs)
      | none => none
    | none => none

/-- Python truthiness of a JSON value (`if layout.get('autosize') ...`,
`if relayout_data:`). -/
def truthy : Val → Bool
  | .scalar (.boolean b) => b
  | .scalar (.int n) => decide (n ≠ 0)
  | .scalar (.str s) => !s.isEmpty
  | .scalar (.dt _) => true
  | .arr a => !a.isEmpty
  | .plist l => !l.isEmpty
  | .dict d => !d.isEmpty

/-- The pane-side state entering a render: the `object` parameter
(already serialized, `none` when unset) and the pane's `sizing_mode`
parameter (`none` iff it is still the framework default, which in the
source is the identity check `self.sizing_mode is self.param.sizing_mode.default`). -/
structure Pane where
  object : Option Fig
  sizingMode : Option String
  renderCount : Nat

/-- The widget-model side (`PlotlyPlot` bokeh model): last-applied traces,
layout, columnar buffers, sizing mode and the render counter. -/
structure Model where
  data : List Entries
  layout : Entries
  data_sources : List Buf
  sizing_mode : Option String
  render_count : Nat

/-- `Plotly._init_params` (the render-relevant fields): serializes the
figure, extracts sources, and forces `stretch_both` when layout autosize
is truthy and the pane's sizing mode is still the default. -/
def initParams (pane : Pane) : Option Model :=
  match pane.object with
  | none =>
    some { data := [], layout := [], data_sources := [],
           sizing_mode := pane.sizingMode, render_count := pane.renderCount }
  | some fig =>
    let json := plotlyJsonWrapper fig
    match getSources json.data with
    | some (data', sources) =>
      let layout := json.layout
      let autosize := match assocFind layout "autosize" with
        | some v => truthy v
        | none => false
      let sizing : Option String :=
        if autosize && pane.sizingMode = none then some "stretch_both"
        else pane.sizingMode
      some { data := data', layout := layout, data_sources := sources,
             sizing_mode := sizing, render_count := pane.renderCount }
    | none => none

/-- The per-key comparison inside `_update_data_sources`: a missing key or
an empty column raises inside the `try` (treated as changed); otherwise
type/shape/content mismatch of the stored array. -/
def updateArrayNeeded (cds : Buf) (key : String) (new : List Elem) : Bool :=
  match assocFind cds key with
  | none => true
  | some [] => true
  | some (old :: _) => decide (old ≠ new)

/-- The `for key, new_col in trace_arrays.items()` loop of
`_update_data_sources`: writes `[new]` for each changed key. `none` models
the uncaught `IndexError` of `new_col[0]` on an empty column (unreachable:
the extractor always wraps arrays as singletons). -/
def applyTraceArrays : Buf → List (String × List (List Elem)) → Bool →
    Option (Buf × Bool)
  | cds, [], upd => some (cds, upd)
  | cds, (key, newCol) :: rest, upd =>
    match newCol with
    | [] => none
    | new :: _ =>
      if updateArrayNeeded cds key new then
        applyTraceArrays (assocSet cds key [new]) rest true
      else
        applyTraceArrays cds rest upd

/-- `Plotly._update_data_sources(cds, trace)`: extracts the trace's arrays
(stripping them from the trace in place) and updates the buffer; returns
(stripped trace, updated buffer, update flag). -/
def updateDataSources (cds : Buf) (trace : Entries) :
    Option (Entries × Buf × Bool) :=
  match gsEntries trace [] "" with
  | none => none
  | some (trace', arrays) =>
    match applyTraceArrays cds arrays false with
    | none => none
    | some (cds', upd) => some (trace', cds', upd)

/-- The `for i, trace in enumerate(traces)` loop of `_update`: existing
sources are reused (and mutated in place), missing ones allocated; returns
(mutated existing sources incl. untouched leftovers, new sources,
update flag, stripped traces). -/
def updateLoop : List Entries → List Buf →
    Option (List Buf × List Buf × Bool × List Entries)
  | [], leftover => some (leftover, [], false, [])
  | t :: ts, s :: ss =>
    match updateDataSources s t with
    | some (t', s', upd) =>
      match updateLoop ts ss with
      | some (ss', newS, updR, ts') =>
        some (s' :: ss', newS, upd || updR, t' :: ts')
      | none => none
    | none => none
  | t :: ts, [] =>
    match updateDataSources [] t with
    | some (t', s', upd) =>
      match updateLoop ts [] with
      | some (_, newS, updR, ts') =>
        some ([], s' :: newS, upd || updR, t' :: ts')
      | none => none
    | none => none

/-- The `{k: v for k, v in d.items() if k != 'uid'}` comprehension. -/
def stripUid (t : Entries) : Entries :=
  t.filter fun kv => kv.1 ≠ "uid"

/-- The `for new, old in zip(traces, model.data)` comparison loop of
`_update` (uid excluded from the comparison). -/
def tracesDiffer : List Entries → List Entries → Bool
  | n :: ns, o :: os =>
    (!Val.beqEntries (stripUid n) (stripUid o)) || tracesDiffer ns os
  | _, _ => false

/-- `Plotly._update`: the diff engine. Returns the new widget model
(`none` models an exception escaping from the extractor). -/
def update (pane : Pane) (m : Model) : Option Model :=
  match pane.object with
  | none =>
    some { m with data := [], layout := [],
                  render_count := m.render_count + 1 }
  | some fig =>
    let json := plotlyJsonWrapper fig
    let layout := json.layout
    match updateLoop json.data m.data_sources with
    | none => none
    | some (existing, newSources, update_sources, traces) =>
      let update_layout := !Val.beqEntries m.layout layout
      let update_data :=
        if traces.length ≠ m.data.length then true
        else tracesDiffer traces m.data
      let szUpd : Option String :=
        if pane.sizingMode = none && (assocFind layout "autosize").isSome then
          let autosize := match assocFind layout "autosize" with
            | some v => truthy v
            | none => false
          if autosize && m.sizing_mode ≠ some "stretch_both" then
            some "stretch_both"
          else if !autosize && m.sizing_mode ≠ some "fixed" then
            some "fixed"
          else none
        else none
      let anyUpdates :=
        szUpd.isSome || !newSources.isEmpty || update_data || update_layout
      some { data := if update_data then traces else m.data,
             layout := if update_layout then layout else m.layout,
             data_sources := existing ++ newSources,
             sizing_mode := match szUpd with
               | some s => some s
               | none => m.sizing_mode,
             render_count :=
               if anyUpdates || update_sources then m.render_count + 1
               else m.render_count }

/-- Python truthiness of the `source_view_id` argument
(`if source_view_id: return`). -/
def truthyOptStr : Option String → Bool
  | none => false
  | some s => !s.isEmpty

/-- The outbound update message assembled by `_send_update_msg`:
`relayout`/`restyle` keys are only present when the corresponding data is
truthy (a non-empty dict). -/
structure UpdMsg where
  relayout : Option Entries
  restyle : Option (Entries × List Nat)

/-- Modelled from the spec: plotly's `BaseFigure._normalize_trace_indexes`
(not part of this repository) — `None` selects all trace indexes of the
figure. -/
def normalizeTraceIndexes (ntraces : Nat) : Option (List Nat) → List Nat
  | none => List.range ntraces
  | some l => l

/-- `Plotly._send_update_msg`: suppresses the broadcast when
`source_view_id` is truthy, otherwise pushes the assembled message to
every registered view (`self._models`); returns the (view, message) pairs
actually pushed. -/
def sendUpdateMsg (restyleData relayoutData : Entries)
    (traceIndexes : Option (List Nat)) (sourceViewId : Option String)
    (ntraces : Nat) (views : List String) : List (String × UpdMsg) :=
  if truthyOptStr sourceViewId then []
  else
    let ti := normalizeTraceIndexes ntraces traceIndexes
    let msg : UpdMsg :=
      { relayout := if relayoutData.isEmpty then none else some relayoutData,
        restyle := if restyleData.isEmpty then none
                   else some (restyleData, ti) }
    views.map fun v => (v, msg)

/-- `Plotly._send_restyle_msg`. -/
def sendRestyleMsg (restyleData : Entries) (traceIndexes : Option (List Nat))
    (sourceViewId : Option String) (ntraces : Nat) (views : List String) :
    List (String × UpdMsg) :=
  sendUpdateMsg restyleData [] traceIndexes sourceViewId ntraces views

/-- `Plotly._send_relayout_msg`. -/
def sendRelayoutMsg (relayoutData : Entries) (sourceViewId : Option String)
    (ntraces : Nat) (views : List String) : List (String × UpdMsg) :=
  sendUpdateMsg [] relayoutData none sourceViewId ntraces views

/-- The pane state seen by the inbound event handlers: the owned figure
reference (`self._figure`, possibly `None`) and the last received
`restyle_data`/`relayout_data` parameter values. The figure type is
abstract: the handlers only forward to the figure's own mutation entry
points. -/
structure PaneEventState (F : Type) where
  figure : Option F
  restyleData : Option (Entries × List Nat)
  relayoutData : Option Entries

/-- `Plotly._update_figure_style`: applies `plotly_restyle` to the owned
figure unless the figure or the data is `None`. -/
def updateFigureStyle {F : Type} (plotlyRestyle : F → Entries × List Nat → F)
    (st : PaneEventState F) : PaneEventState F :=
  match st.figure with
  | none => st
  | some f =>
    match st.restyleData with
    | none => st
    | some rd => { st with figure := some (plotlyRestyle f rd) }

/-- `Plotly._update_figure_layout`: applies `plotly_relayout` to the owned
figure unless the figure or the data is `None`. -/
def updateFigureLayout {F : Type} (plotlyRelayout : F → Entries → F)
    (st : PaneEventState F) : PaneEventState F :=
  match st.figure with
  | none => st
  | some f =>
    match st.relayoutData with
    | none => st
    | some ld => { st with figure := some (plotlyRelayout f ld) }

/-- String-typedness of a leaf value: an array or list all of whose
elements are strings (the shape the datetime pass promises to produce). -/
def stringTyped : Val → Bool
  | .arr a => a.all fun e => match e with | .str _ => true | _ => false
  | .plist l =>
    l.all fun v => match v with | .scalar (.str _) => true | _ => false
  | _ => false

/-- A bokeh widget-tree node as seen by `_patch_tabs_plotly`: a `Tabs`
container (its children being the roots of its tab panels, `active` its
active tab index), a `PlotlyPlot` widget, or any other model. -/
inductive BTree where
  | tabs (id : String) (active : Nat) (children : List BTree)
  | plotW (id : String)
  | node (id : String) (children : List BTree)

/-- The id of a bokeh model. -/
def btId : BTree → String
  | .tabs i _ _ => i
  | .plotW i => i
  | .node i _ => i

/-- `active` of a Tabs model. -/
def tabsActive : BTree → Nat
  | .tabs _ a _ => a
  | _ => 0

/-- `tabs` (the tab panels) of a Tabs model. -/
def tabsChildren : BTree → List BTree
  | .tabs _ _ cs => cs
  | _ => []

mutual

/-- `model.select_one({'id': pid})` as a containment test: does the
subtree contain a model with this id. -/
def btContains : BTree → String → Bool
  | .tabs i _ cs, pid => i == pid || btContainsList cs pid
  | .plotW i, pid => i == pid
  | .node i cs, pid => i == pid || btContainsList cs pid

/-- Containment over a child list. -/
def btContainsList : List BTree → String → Bool
  | [], _ => false
  | c :: cs, pid => btContains c pid || btContainsList cs pid

end

mutual

/-- `root.select({'type': Tabs})`: all Tabs models, in preorder. -/
def collectTabs : BTree → List BTree
  | .tabs i a cs => BTree.tabs i a cs :: collectTabsList cs
  | .plotW _ => []
  | .node _ cs => collectTabsList cs

/-- `collectTabs` over a child list. -/
def collectTabsList : List BTree → List BTree
  | [] => []
  | c :: cs => collectTabs c ++ collectTabsList cs

end

mutual

/-- `root.select({'type': PlotlyPlot})`: ids of all plot widgets, in
preorder. -/
def collectPlotly : BTree → List String
  | .tabs _ _ cs => collectPlotlyList cs
  | .plotW i => [i]
  | .node _ cs => collectPlotlyList cs

/-- `collectPlotly` over a child list. -/
def collectPlotlyList : List BTree → List String
  | [] => []
  | c :: cs => collectPlotly c ++ collectPlotlyList cs

end

/-- The innermost-candidate selection loop of `_patch_tabs_plotly`
(`for tabs in parent_tabs: if not any(tabs.select_one(pt) ...)`).
`tabs.select_one(pt)` is modelled from the spec — "the one among its
ancestors that is not itself nested inside another candidate ancestor" —
as "`pt` occurs in `tabs`' subtree"; the `pt is not tabs` identity check
becomes id inequality (bokeh model ids are unique). -/
def innermostTabs (cands : List BTree) : Option BTree :=
  cands.find? fun t =>
    !(cands.any fun pt => btId pt != btId t && btContains t (btId pt))

/-- The `for i, tab in enumerate(parent_tab.tabs)` search with `break`;
the fallback index cannot occur for a parent that contains the widget. -/
def tabIndexOf (pt : BTree) (pid : String) : Nat :=
  match (tabsChildren pt).findIdx? (fun c => btContains c pid) with
  | some i => i
  | none => (tabsChildren pt).length - 1

/-- The observable effects of `_patch_tabs_plotly`: the `change:active`
CustomJS callbacks present on Tabs models, each recorded as
(tabs id, plot id, tab-index argument `i`) — the fixed code string plus
the `model` arg identify a callback — and the `model.visible` assignments
performed. -/
structure TabsPatchState where
  callbacks : List (String × String × Nat)
  visible : List (String × Bool)

/-- The `for model in plotly_models` loop of `_patch_tabs_plotly`. When no
enclosing Tabs is found the source executes `return`, ending the loop with
the remaining plot widgets unprocessed. -/
def patchLoop (tabsModels : List BTree) :
    TabsPatchState → List String → TabsPatchState
  | st, [] => st
  | st, pid :: rest =>
    let parentTabs := tabsModels.filter fun t => btContains t pid
    match innermostTabs parentTabs with
    | none => st
    | some pt =>
      let i := tabIndexOf pt pid
      let updated := st.callbacks.any fun c => c.1 == btId pt && c.2.1 == pid
      let st' :=
        if updated then
          { st with
            callbacks := st.callbacks.map fun c =>
              if c.1 == btId pt && c.2.1 == pid then (c.1, pid, i) else c }
        else
          { callbacks := st.callbacks ++ [(btId pt, pid, i)],
            visible := st.visible ++ [(pid, tabsActive pt == i)] }
      patchLoop tabsModels st' rest

/-- `_patch_tabs_plotly(viewable, root)`. -/
def patchTabsPlotly (root : BTree) (st : TabsPatchState) : TabsPatchState :=
  patchLoop (collectTabs root) st (collectPlotly root)

/-! ### Structural paths, specification mirrors of the extractor, and the
merge-back operation used to state the round-trip property (C5). -/

/-- One step of a structural path into a trace: a dict key or the index
of an element in a list of dicts. -/
inductive PElem where
  | key (k : String)
  | idx (i : Nat)
deriving DecidableEq, Repr

/-- A structural path. -/
abbrev Path := List PElem

/-- The token the extractor renders for one path step (`str(i)` for list
indexes). -/
def tokenOf : PElem → String
  | .key k => k
  | .idx i => toString i

/-- One step of the dotted-path construction, exactly as the source
builds it: keys via `childPath`, list indexes via
`full_path + '.' + str(i)`. -/
def extendPath (pp : String) : PElem → String
  | .key k => childPath pp k
  | .idx i => pp ++ "." ++ toString i

/-- The dotted path string the extractor would build for a structural
path, starting from prefix `pp`. -/
def renderPathFrom (pp : String) (P : Path) : String :=
  P.foldl extendPath pp

/-- Lookup along a structural path, following exactly the places the
extractor visits: dict keys always, list elements only in a list whose
first element is a dict. -/
def elookupVal : Val → Path → Option Val
  | v, [] => some v
  | .dict es, PElem.key k :: ps =>
    match assocFind es k with
    | some v => elookupVal v ps
    | none => none
  | .plist (Val.dict e0 :: tail), PElem.idx i :: ps =>
    match (Val.dict e0 :: tail).get? i with
    | some v => elookupVal v ps
    | none => none
  | _, _ => none

/-- Plain lookup along a structural path (dicts by key, any list by
index). -/
def lookupVal : Val → Path → Option Val
  | v, [] => some v
  | .dict es, PElem.key k :: ps =>
    match assocFind es k with
    | some v => lookupVal v ps
    | none => none
  | .plist l, PElem.idx i :: ps =>
    match l.get? i with
    | some v => lookupVal v ps
    | none => none
  | _, _ => none

/-- A well-formed plotly attribute key: nonempty and without dots (plotly
attribute names never contain `.`, which the extractor uses as its path
separator). -/
def keyOk (k : String) : Bool :=
  !k.isEmpty && !(k.data.contains '.')

/-- Is the value a dict. -/
def isDictB : Val → Bool
  | .dict _ => true
  | _ => false

mutual

/-- Well-formedness of a value as produced by plotly serialization: dict
keys are unique, nonempty and dot-free, and a list whose first element is
a dict contains only dicts (so the extractor's element recursion cannot
hit a non-dict). -/
def wfVal : Val → Bool
  | .arr _ => true
  | .scalar _ => true
  | .plist l =>
    (match l with
     | Val.dict _ :: _ => l.all isDictB
     | _ => true) && wfList l
  | .dict es => wfEntries es

/-- `wfVal` over list elements. -/
def wfList : List Val → Bool
  | [] => true
  | v :: tail => wfVal v && wfList tail

/-- `wfVal` over dict entries, with key well-formedness and uniqueness. -/
def wfEntries : Entries → Bool
  | [] => true
  | (k, v) :: es =>
    keyOk k && !((es.map Prod.fst).contains k) && wfVal v && wfEntries es

end

mutual

/-- Specification mirror of the extractor's effect on a value: bulk
arrays are removed from dicts, everything else kept in place. -/
def stripVal : Val → Val
  | .dict es => .dict (stripEntries es)
  | .plist l =>
    match l with
    | Val.dict e0 :: tail => .plist (stripElems (Val.dict e0 :: tail))
    | _ => .plist l
  | v => v

/-- `stripVal` over dict entries: array entries are popped. -/
def stripEntries : Entries → Entries
  | [] => []
  | (k, v) :: es =>
    match v with
    | .arr _ => stripEntries es
    | _ => (k, stripVal v) :: stripEntries es

/-- `stripVal` over the elements of a list of dicts. -/
def stripElems : List Val → List Val
  | [] => []
  | v :: tail => stripVal v :: stripElems tail

end

mutual

/-- Specification mirror of the extractor's additions to the buffer: the
structural paths (relative to the value) of all extracted arrays, with
the arrays, in extraction order. -/
def collectPathsVal : Val → List (Path × List Elem)
  | .arr a => [([], a)]
  | .scalar _ => []
  | .plist l =>
    match l with
    | Val.dict e0 :: tail => collectPathsElems (Val.dict e0 :: tail) 0
    | _ => []
  | .dict es => collectPaths es

/-- `collectPathsVal` over dict entries. -/
def collectPaths : Entries → List (Path × List Elem)
  | [] => []
  | (k, v) :: es =>
    (collectPathsVal v).map (fun pa => (PElem.key k :: pa.1, pa.2))
      ++ collectPaths es

/-- `collectPathsVal` over elements of a list of dicts, starting at
index `i`. -/
def collectPathsElems : List Val → Nat → List (Path × List Elem)
  | [], _ => []
  | v :: tail, i =>
    (collectPathsVal v).map (fun pa => (PElem.idx i :: pa.1, pa.2))
      ++ collectPathsElems tail (i + 1)

end

/-- Replay a list of buffer writes (`data[path] = [arr]`). -/
def applyBufWrites (buf : Buf) (ws : List (String × List Elem)) : Buf :=
  ws.foldl (fun b w => assocSet b w.1 [w.2]) buf

/-- The buffer writes the extractor performs on entries `es` under path
prefix `pp`: the collected paths, rendered to dotted strings. -/
def renderedCollect (es : Entries) (pp : String) :
    List (String × List Elem) :=
  (collectPaths es).map fun pa => (renderPathFrom pp pa.1, pa.2)

/-- `renderedCollect` of a single value under prefix `pp`. -/
def renderedCollectVal (v : Val) (pp : String) : List (String × List Elem) :=
  (collectPathsVal v).map fun pa => (renderPathFrom pp pa.1, pa.2)

/-- `renderedCollect` over elements of a list of dicts. -/
def renderedCollectElems (l : List Val) (i : Nat) (fp : String) :
    List (String × List Elem) :=
  (collectPathsElems l i).map fun pa => (renderPathFrom fp pa.1, pa.2)

/-- The character contribution of a token list to a dotted path: each
token preceded by a dot. -/
def dotChunks : List String → List Char
  | [] => []
  | t :: ts => '.' :: t.data ++ dotChunks ts

/-- Strip an exact prefix from a character list. -/
def chopPrefix : List Char → List Char → Option (List Char)
  | [], rest => some rest
  | _ :: _, [] => none
  | a :: as, b :: bs => if a = b then chopPrefix as bs else none

/-- Decide whether `p` is the dotted path of an immediate dict child of
the node at dotted path `pp`, returning the child key: `p = childPath pp
k` for a dot-free nonempty `k`. -/
def isChildKeyOf (pp p : String) : Option String :=
  if pp = "" then
    if p.data ≠ [] ∧ ¬p.data.contains '.' then some p else none
  else
    match chopPrefix (pp.data ++ ['.']) p.data with
    | some r => if r ≠ [] ∧ ¬r.contains '.' then some (String.mk r) else none
    | none => none

/-- The entries a buffer contributes back to the dict at dotted path
`pp` when merging the buffer into the stripped trace: every buffer column
keyed by an immediate-child path of `pp`, unwrapped from its
single-element list. -/
def readded (buf : Buf) (pp : String) : Entries :=
  buf.filterMap fun qc =>
    match isChildKeyOf pp qc.1 with
    | some k =>
      match qc.2 with
      | [a] => some (k, Val.arr a)
      | _ => none
    | none => none

mutual

/-- Merge a buffer back into a stripped value: walk the value the way the
extractor walked it, re-adding at every dict the buffer columns keyed by
that dict's child paths. -/
def restoreVal : Val → Buf → String → Val
  | .dict es, buf, pp =>
    .dict (restoreEntriesAux es buf pp ++ readded buf pp)
  | .plist l, buf, fp =>
    (match l with
     | Val.dict e0 :: tail =>
       .plist (restoreElems (Val.dict e0 :: tail) 0 buf fp)
     | _ => .plist l)
  | v, _, _ => v

/-- `restoreVal` over the kept entries of a dict. -/
def restoreEntriesAux : Entries → Buf → String → Entries
  | [], _, _ => []
  | (k, v) :: es, buf, pp =>
    (k, restoreVal v buf (childPath pp k)) :: restoreEntriesAux es buf pp

/-- `restoreVal` over elements of a list of dicts. -/
def restoreElems : List Val → Nat → Buf → String → List Val
  | [], _, _, _ => []
  | v :: tail, i, buf, fp =>
    restoreVal v buf (fp ++ "." ++ toString i)
      :: restoreElems tail (i + 1) buf fp

end

/-- Merge a buffer back into stripped dict entries. -/
def restoreEntries (es : Entries) (buf : Buf) (pp : String) : Entries :=
  restoreEntriesAux es buf pp ++ readded buf pp

/-- Sort dict entries by key (keys are unique in well-formed values, so
this canonical order is unambiguous). -/
def sortEntries (es : Entries) : Entries :=
  List.insertionSort (fun a b => a.1 ≤ b.1) es

instance : IsTotal (String × Val) (fun a b => a.1 ≤ b.1) :=
  ⟨fun a b => le_total a.1 b.1⟩

instance : IsTrans (String × Val) (fun a b => a.1 ≤ b.1) :=
  ⟨fun _ _ _ h1 h2 => le_trans h1 h2⟩

mutual

/-- Canonical form of a value: dict entries sorted by key at every level.
Two values are "the same trace content" iff their canonical forms are
equal (dicts compare as mappings, lists stay ordered). -/
def canon : Val → Val
  | .arr a => .arr a
  | .scalar e => .scalar e
  | .plist l => .plist (canonList l)
  | .dict es => .dict (sortEntries (canonEntries es))

/-- `canon` over list elements. -/
def canonList : List Val → List Val
  | [] => []
  | v :: tail => canon v :: canonList tail

/-- `canon` over dict entries. -/
def canonEntries : Entries → Entries
  | [] => []
  | (k, v) :: es => (k, canon v) :: canonEntries es

end

/-- Decimal digit characters of a natural number, most significant
first: the specification of `Nat.repr`/`toString`. -/
def decDigits (n : Nat) : List Char :=
  if _h : n < 10 then [Nat.digitChar n]
  else decDigits (n / 10) ++ [Nat.digitChar (n % 10)]
decreasing_by
  exact Nat.div_lt_self (by omega) (by omega)

/-- Value of a decimal digit character. -/
def digitVal (c : Char) : Nat := c.toNat - 48

/-- Parse a decimal character list back to a number. -/
def parseDec (l : List Char) : Nat :=
  l.foldl (fun a c => 10 * a + digitVal c) 0

/-! ## Theorems -/

/-- Helper: `assocFind` over a value-mapped association list. -/
theorem assocFind_mapVal {α β : Type} (f : α → β) (d : List (String × α))
    (k : String) :
    assocFind (d.map fun kv => (kv.1, f kv.2)) k = (assocFind d k).map f := by
  induction d with
  | nil => rfl
  | cons hd tl ih =>
    obtain ⟨k', v⟩ := hd
    by_cases h : k' = k <;> simp [assocFind, h, ih]

/-- Helper: a datetime-typed value is string-typed after the conversion
branch of the wrapper. -/
theorem stringTyped_normalizeDatetime (v : Val) (h : isdatetime v = true) :
    stringTyped (normalizeDatetime v) = true := by
  cases v with
  | arr a =>
    simp [normalizeDatetime, h, stringTyped, List.all_eq_true]
  | plist l =>
    simp only [normalizeDatetime, h, if_true]
    simp only [isdatetime, Bool.and_eq_true, List.all_eq_true] at h
    simp only [stringTyped, List.all_eq_true, List.mem_map]
    rintro x ⟨u, hu, rfl⟩
    have hu' := h.2 u hu
    cases u with
    | scalar e => cases e <;> simp_all
    | arr a => simp_all
    | plist m => simp_all
    | dict d => simp_all
  | scalar e => simp [isdatetime] at h
  | dict d => simp [isdatetime] at h

/-- Claim C1, counterexample: a remote restyle with truthy
`source_view_id = "v1"` and a second registered view `"v2"` produces an
empty broadcast — in particular the non-originating view `"v2"` does not
receive the update, contrary to the claim that views other than the
originator still receive it. -/
theorem c1_counterexample :
    sendRestyleMsg [("marker.color", Val.scalar (.str "red"))] none
        (some "v1") 1 ["v1", "v2"] = [] ∧
    ∀ msg : UpdMsg, ("v2", msg) ∉ sendRestyleMsg
        [("marker.color", Val.scalar (.str "red"))] none
        (some "v1") 1 ["v1", "v2"] := by
  have h : sendRestyleMsg [("marker.color", Val.scalar (.str "red"))] none
      (some "v1") 1 ["v1", "v2"] = [] := by
    simp [sendRestyleMsg, sendUpdateMsg, truthyOptStr]
    decide
  exact ⟨h, fun msg hm => by rw [h] at hm; exact List.not_mem_nil _ hm⟩

/-- Claim C1 (amended): a registered view receives the outbound update
message iff the mutation's `source_view_id` is falsy; a truthy
`source_view_id` suppresses the broadcast to every view — including views
other than the originator — rather than skipping only the originating
view. -/
theorem c1_amended_broadcast (restyleData relayoutData : Entries)
    (ti : Option (List Nat)) (src : Option String) (n : Nat)
    (views : List String) (v : String) (hv : v ∈ views) :
    (∃ msg, (v, msg) ∈ sendUpdateMsg restyleData relayoutData ti src n views)
      ↔ truthyOptStr src = false := by
  constructor
  · rintro ⟨msg, hm⟩
    cases ht : truthyOptStr src
    · rfl
    · simp [sendUpdateMsg, ht] at hm
  · intro hf
    simp only [sendUpdateMsg, hf, Bool.false_eq_true, if_false]
    exact ⟨_, List.mem_map_of_mem _ hv⟩

/-- Claim C1, witness for the amended theorem at a concrete input. -/
theorem c1_amended_broadcast_witness :
    ("v2" ∈ ["v1", "v2"]) ∧
    ((∃ msg, ("v2", msg) ∈ sendUpdateMsg
        [("marker.color", Val.scalar (.str "red"))] [] none none 1
        ["v1", "v2"]) ↔ truthyOptStr none = false) :=
  ⟨by decide,
   c1_amended_broadcast [("marker.color", Val.scalar (.str "red"))] [] none
     none 1 ["v1", "v2"] "v2" (by decide)⟩

/-- Claim C3: for the figure whose single trace is `{x:[1,2,3], y:[4,5,6]}`
with empty layout, the extractor leaves the trace as the empty mapping
(every key extracted) and produces the buffer `{x:[[1,2,3]], y:[[4,5,6]]}`. -/
theorem c3_extractor_scenario :
    getSources [[("x", Val.arr [.int 1, .int 2, .int 3]),
                 ("y", Val.arr [.int 4, .int 5, .int 6])]]
      = some ([[]],
              [[("x", [[Elem.int 1, .int 2, .int 3]]),
                ("y", [[Elem.int 4, .int 5, .int 6]])]]) := by
  simp [getSources, gsEntries, childPath, assocSet]

/-- Claim C4, counterexample: a trace with a datetime array nested below
the top level (`{marker: {color: [dt 5]}}`) passes through
`_plotly_json_wrapper` unchanged: the nested leaf is datetime-typed and is
not string-typed after the pass, contrary to the claim's "at any nesting
depth". -/
theorem c4_counterexample :
    plotlyJsonWrapper
        ⟨[[("marker", Val.dict [("color", Val.arr [.dt 5])])]], []⟩
      = ⟨[[("marker", Val.dict [("color", Val.arr [.dt 5])])]], []⟩ ∧
    isdatetime (Val.arr [Elem.dt 5]) = true ∧
    stringTyped (Val.arr [Elem.dt 5]) = false := by
  refine ⟨?_, rfl, rfl⟩
  simp [plotlyJsonWrapper, normalizeDatetime, isdatetime]

/-- Claim C4 (amended): the datetime pass string-types exactly the
top-level values of each trace: each trace is mapped pointwise by
`normalizeDatetime`, and every top-level key whose value is datetime-typed
(array or list) maps afterwards to a string-typed value; values nested
deeper are not touched. -/
theorem c4_amended_top_level (fig : Fig) (i : Nat) (tr : Entries)
    (hi : fig.data.get? i = some tr) :
    ∃ tr', (plotlyJsonWrapper fig).data.get? i = some tr' ∧
      tr' = (tr.map fun kv => (kv.1, normalizeDatetime kv.2)) ∧
      ∀ k v, assocFind tr k = some v → isdatetime v = true →
        assocFind tr' k = some (normalizeDatetime v) ∧
        stringTyped (normalizeDatetime v) = true := by
  refine ⟨tr.map fun kv => (kv.1, normalizeDatetime kv.2), ?_, rfl, ?_⟩
  · simp only [plotlyJsonWrapper, List.get?_eq_getElem?] at hi ⊢
    simp [List.getElem?_map, hi]
  · intro k v hk hdt
    exact ⟨by simp [assocFind_mapVal, hk],
           stringTyped_normalizeDatetime v hdt⟩

/-- Claim C4, witness for the amended theorem at a concrete input. -/
theorem c4_amended_top_level_witness :
    ((⟨[[("x", Val.arr [.dt 7])]], []⟩ : Fig).data.get? 0
        = some [("x", Val.arr [.dt 7])]) ∧
    (∃ tr', (plotlyJsonWrapper ⟨[[("x", Val.arr [.dt 7])]], []⟩).data.get? 0
        = some tr' ∧
      tr' = ([("x", Val.arr [.dt 7])].map fun kv =>
        (kv.1, normalizeDatetime kv.2)) ∧
      ∀ k v, assocFind [("x", Val.arr [.dt 7])] k = some v →
        isdatetime v = true →
        assocFind tr' k = some (normalizeDatetime v) ∧
        stringTyped (normalizeDatetime v) = true) :=
  ⟨rfl, c4_amended_top_level ⟨[[("x", Val.arr [.dt 7])]], []⟩ 0
    [("x", Val.arr [.dt 7])] rfl⟩

/-- Claim C7, counterexample: on the initial render (`_init_params`), with
layout `{autosize: False}` and the pane's sizing mode still at its default,
the sizing mode is left unset — it is not forced to `fixed`, contrary to
the claim's "on any render ... autosize being false forces it to fixed". -/
theorem c7_counterexample :
    initParams
        { object := some ⟨[], [("autosize", Val.scalar (.boolean false))]⟩,
          sizingMode := none, renderCount := 0 }
      = some { data := [], layout := [("autosize", Val.scalar (.boolean false))],
               data_sources := [], sizing_mode := none, render_count := 0 } := by
  simp [initParams, plotlyJsonWrapper, getSources, gsEntries, assocFind, truthy]

/-- Claim C9: both inbound-event handlers (restyle application and
relayout application) are no-ops when the owned figure reference is
missing: they return the state unchanged, for any mutation functions and
any pending event data. -/
theorem c9_missing_figure_noop {F : Type}
    (restyleApp : F → Entries × List Nat → F) (relayoutApp : F → Entries → F)
    (rd : Option (Entries × List Nat)) (ld : Option Entries) :
    updateFigureStyle restyleApp ⟨none, rd, ld⟩ = ⟨none, rd, ld⟩ ∧
    updateFigureLayout relayoutApp ⟨none, rd, ld⟩ = ⟨none, rd, ld⟩ :=
  ⟨rfl, rfl⟩

/-- Claim C10: when the pane's object is `None`, `_update` sets the widget
model's trace list to `[]` and its layout to `{}`, increments the render
count by exactly one, and leaves `data_sources` (and everything else)
unchanged. -/
theorem c10_update_object_none (m : Model) (sz : Option String) (rc : Nat) :
    update { object := none, sizingMode := sz, renderCount := rc } m
      = some { m with data := [], layout := [],
                      render_count := m.render_count + 1 } := rfl

/-- Claim C7 (amended): on an update render with the pane's sizing mode at
its framework default and `autosize` present in the layout, the resulting
model sizing mode is `stretch_both` when autosize is truthy and `fixed`
when it is falsy; with an explicitly set pane sizing mode the update
leaves the model's sizing mode untouched. On the initial render
(`_init_params`) only a truthy autosize forces `stretch_both`; a falsy or
absent autosize leaves the sizing mode at the pane's value (the default),
and an explicitly set pane sizing mode is passed through. -/
theorem c7_amended_sizing :
    (∀ fig m rc v m', assocFind fig.layout "autosize" = some v →
        update { object := some fig, sizingMode := none, renderCount := rc } m
          = some m' →
        m'.sizing_mode = some (if truthy v then "stretch_both" else "fixed")) ∧
    (∀ fig m rc s m',
        update { object := some fig, sizingMode := some s, renderCount := rc } m
          = some m' →
        m'.sizing_mode = m.sizing_mode) ∧
    (∀ pane fig m', pane.object = some fig → initParams pane = some m' →
        (pane.sizingMode ≠ none → m'.sizing_mode = pane.sizingMode) ∧
        (pane.sizingMode = none →
          m'.sizing_mode
            = if (match assocFind fig.layout "autosize" with
                  | some w => truthy w
                  | none => false)
              then some "stretch_both" else none)) := by
  refine ⟨?_, ?_, ?_⟩
  · intro fig m rc v m' hv hup
    simp only [update] at hup
    cases hq : updateLoop (plotlyJsonWrapper fig).data m.data_sources with
    | none => rw [hq] at hup; simp at hup
    | some quad =>
      obtain ⟨ex, newS, us, trs⟩ := quad
      rw [hq] at hup
      simp only [Option.some.injEq] at hup
      subst hup
      have hlay : (plotlyJsonWrapper fig).layout = fig.layout := rfl
      simp only [hlay, hv, Option.isSome_some, Bool.and_true, decide_True,
        Bool.true_and, if_true]
      cases htv : truthy v with
      | true =>
        by_cases hm : m.sizing_mode = some "stretch_both"
        · simp [hm, htv]
        · simp [hm, htv]
      | false =>
        by_cases hm : m.sizing_mode = some "fixed"
        · simp [hm, htv]
        · simp [hm, htv]
  · intro fig m rc s m' hup
    simp only [update] at hup
    cases hq : updateLoop (plotlyJsonWrapper fig).data m.data_sources with
    | none => rw [hq] at hup; simp at hup
    | some quad =>
      obtain ⟨ex, newS, us, trs⟩ := quad
      rw [hq] at hup
      simp only [Option.some.injEq] at hup
      subst hup
      simp
  · intro pane fig m' hobj hip
    simp only [initParams, hobj] at hip
    cases hg : getSources (plotlyJsonWrapper fig).data with
    | none => rw [hg] at hip; simp at hip
    | some pr =>
      obtain ⟨data', sources⟩ := pr
      rw [hg] at hip
      simp only [Option.some.injEq] at hip
      subst hip
      have hlay : (plotlyJsonWrapper fig).layout = fig.layout := rfl
      constructor
      · intro hne
        simp only [hlay]
        cases hsz : pane.sizingMode with
        | none => exact absurd hsz hne
        | some s => simp
      · intro hz
        simp only [hlay, hz]
        cases hfind : assocFind fig.layout "autosize" with
        | none => simp
        | some w => cases hw : truthy w <;> simp [hw]

/-- Claim C7, witness for the amended theorem at a concrete input. -/
theorem c7_amended_sizing_witness :
    (assocFind ([("autosize", Val.scalar (.boolean true))] : Entries) "autosize"
        = some (Val.scalar (.boolean true))) ∧
    (update { object := some (Fig.mk [] [("autosize", Val.scalar (.boolean true))]),
              sizingMode := none, renderCount := 0 }
        { data := [], layout := [], data_sources := [],
          sizing_mode := none, render_count := 0 }
      = some { data := [], layout := [("autosize", Val.scalar (.boolean true))],
               data_sources := [], sizing_mode := some "stretch_both",
               render_count := 1 }) ∧
    (Model.sizing_mode
        { data := [], layout := [("autosize", Val.scalar (.boolean true))],
          data_sources := [], sizing_mode := some "stretch_both",
          render_count := 1 }
      = some (if truthy (Val.scalar (.boolean true)) then "stretch_both"
              else "fixed")) := by
  have h1 : assocFind ([("autosize", Val.scalar (.boolean true))] : Entries)
      "autosize" = some (Val.scalar (.boolean true)) := rfl
  have h2 : update { object := some (Fig.mk [] [("autosize", Val.scalar (.boolean true))]),
                     sizingMode := none, renderCount := 0 }
        { data := [], layout := [], data_sources := [],
          sizing_mode := none, render_count := 0 }
      = some { data := [], layout := [("autosize", Val.scalar (.boolean true))],
               data_sources := [], sizing_mode := some "stretch_both",
               render_count := 1 } := by
    simp [update, updateLoop, Val.beqEntries, tracesDiffer, assocFind, truthy,
      plotlyJsonWrapper]
  exact ⟨h1, h2,
    c7_amended_sizing.1 (Fig.mk [] [("autosize", Val.scalar (.boolean true))])
      _ 0 _ _ h1 h2⟩

/-- Helper: shape facts of the `_update` per-trace source loop: existing
sources are preserved in count, traces are preserved in count, and the
total source count grows to the max of old sources and new traces. -/
theorem updateLoop_lengths (ts : List Entries) (ss : List Buf)
    (ex newS : List Buf) (us : Bool) (ts' : List Entries)
    (h : updateLoop ts ss = some (ex, newS, us, ts')) :
    ex.length = ss.length ∧ ts'.length = ts.length ∧
    ex.length + newS.length = max ss.length ts.length := by
  induction ts generalizing ss ex newS us ts' with
  | nil =>
    simp only [updateLoop, Option.some.injEq, Prod.mk.injEq] at h
    obtain ⟨he, hn, hu, ht⟩ := h
    subst he; subst hn; subst ht
    simp
  | cons t ts ih =>
    cases ss with
    | cons s ss =>
      simp only [updateLoop] at h
      cases hd : updateDataSources s t with
      | none => rw [hd] at h; simp at h
      | some tri =>
        obtain ⟨t', s', u1⟩ := tri
        rw [hd] at h
        cases hr : updateLoop ts ss with
        | none => rw [hr] at h; simp at h
        | some quad =>
          obtain ⟨ex1, new1, u2, ts1⟩ := quad
          rw [hr] at h
          simp only [Option.some.injEq, Prod.mk.injEq] at h
          obtain ⟨he, hn, hu, ht⟩ := h
          subst he; subst hn; subst ht
          obtain ⟨h1, h2, h3⟩ := ih ss ex1 new1 u2 ts1 hr
          refine ⟨by simp [h1], by simp [h2], ?_⟩
          simp only [List.length_cons]
          omega
    | nil =>
      simp only [updateLoop] at h
      cases hd : updateDataSources [] t with
      | none => rw [hd] at h; simp at h
      | some tri =>
        obtain ⟨t', s', u1⟩ := tri
        rw [hd] at h
        cases hr : updateLoop ts [] with
        | none => rw [hr] at h; simp at h
        | some quad =>
          obtain ⟨ex1, new1, u2, ts1⟩ := quad
          rw [hr] at h
          simp only [Option.some.injEq, Prod.mk.injEq] at h
          obtain ⟨he, hn, hu, ht⟩ := h
          subst he; subst hn; subst ht
          obtain ⟨h1, h2, h3⟩ := ih [] ex1 new1 u2 ts1 hr
          refine ⟨rfl, by simp [h2], ?_⟩
          simp only [List.length_cons, List.length_nil] at h1 h3 ⊢
          omega

/-- Claim C2, counterexample: starting from a model rendered with two
traces and two columnar buffers, an update whose new figure has a single
trace replaces the trace list (length 1) but keeps both buffers
(length 2), breaking the claimed equality. -/
theorem c2_counterexample :
    update { object := some (Fig.mk [[]] []), sizingMode := none,
             renderCount := 0 }
        { data := [[], []], layout := [], data_sources := [[], []],
          sizing_mode := none, render_count := 0 }
      = some { data := [[]], layout := [], data_sources := [[], []],
               sizing_mode := none, render_count := 1 } ∧
    (Model.data { data := ([[]] : List Entries), layout := [],
                  data_sources := [[], []], sizing_mode := none,
                  render_count := 1 }).length
      ≠ (Model.data_sources { data := ([[]] : List Entries), layout := [],
                              data_sources := [[], []], sizing_mode := none,
                              render_count := 1 }).length := by
  constructor
  · simp [update, updateLoop, updateDataSources, gsEntries, applyTraceArrays,
      Val.beqEntries, tracesDiffer, assocFind, plotlyJsonWrapper]
  · decide

/-- Claim C2 (amended): after every update the model's trace-list length
is at most its buffer-list length (buffers are never removed), with
equality whenever the new figure has at least as many traces as there are
existing buffers; the claimed equality can break exactly when the new
figure has fewer traces than buffers. -/
theorem c2_amended_lengths (pane : Pane) (m m' : Model)
    (h : update pane m = some m') :
    m'.data.length ≤ m'.data_sources.length ∧
    (∀ fig, pane.object = some fig →
      m.data_sources.length ≤ fig.data.length →
      m'.data.length = m'.data_sources.length) := by
  cases hobj : pane.object with
  | none =>
    simp only [update, hobj, Option.some.injEq] at h
    subst h
    exact ⟨by simp, fun fig hf => by simp [hobj] at hf⟩
  | some fig =>
    simp only [update, hobj] at h
    cases hq : updateLoop (plotlyJsonWrapper fig).data m.data_sources with
    | none => rw [hq] at h; simp at h
    | some quad =>
      obtain ⟨ex, newS, us, trs⟩ := quad
      rw [hq] at h
      simp only [Option.some.injEq] at h
      subst h
      obtain ⟨h1, h2, h3⟩ := updateLoop_lengths _ _ _ _ _ _ hq
      have htr : (plotlyJsonWrapper fig).data.length = fig.data.length := by
        simp [plotlyJsonWrapper]
      have key : (if (if trs.length ≠ m.data.length then true
            else tracesDiffer trs m.data) = true then trs else m.data).length
          = trs.length := by
        by_cases hl : trs.length = m.data.length
        · have hgen : ∀ b : Bool,
              (if b = true then trs else m.data).length = trs.length := by
            intro b
            cases b
            · simp [hl]
            · simp
          exact hgen _
        · simp [hl]
      constructor
      · simp only [List.length_append, key]
        omega
      · intro fig' hf hle
        injection hf with hf
        subst hf
        simp only [List.length_append, key]
        omega

/-- Claim C2, witness for the amended theorem at a concrete input. -/
theorem c2_amended_lengths_witness :
    (update
        { object := some (Fig.mk [[]] []), sizingMode := none, renderCount := 0 }
        { data := [[], []], layout := [], data_sources := [[], []],
          sizing_mode := none, render_count := 0 }
      = some
        { data := [[]], layout := [], data_sources := [[], []],
          sizing_mode := none, render_count := 1 }) ∧
    ((Model.data
        { data := ([[]] : List Entries), layout := [], data_sources := [[], []],
          sizing_mode := none, render_count := 1 }).length
        ≤ (Model.data_sources
        { data := ([[]] : List Entries), layout := [], data_sources := [[], []],
          sizing_mode := none, render_count := 1 }).length ∧
     (∀ fig, Pane.object
        { object := some (Fig.mk [[]] []), sizingMode := none, renderCount := 0 }
          = some fig →
       (Model.data_sources
        { data := ([[], []] : List Entries), layout := [],
          data_sources := [[], []], sizing_mode := none,
          render_count := 0 }).length ≤ fig.data.length →
       (Model.data
        { data := ([[]] : List Entries), layout := [], data_sources := [[], []],
          sizing_mode := none, render_count := 1 }).length
         = (Model.data_sources
        { data := ([[]] : List Entries), layout := [], data_sources := [[], []],
          sizing_mode := none, render_count := 1 }).length)) := by
  have h : update
        { object := some (Fig.mk [[]] []), sizingMode := none, renderCount := 0 }
        { data := [[], []], layout := [], data_sources := [[], []],
          sizing_mode := none, render_count := 0 }
      = some
        { data := [[]], layout := [], data_sources := [[], []],
          sizing_mode := none, render_count := 1 } := by
    simp [update, updateLoop, updateDataSources, gsEntries, applyTraceArrays,
      Val.beqEntries, tracesDiffer, assocFind, plotlyJsonWrapper]
  exact ⟨h, c2_amended_lengths _ _ _ h⟩

/-- Helper: keys after `assocSet` are the old keys plus possibly `k`. -/
theorem assocSet_keys_sub {α : Type} (d : List (String × α)) (k : String)
    (v : α) :
    ∀ k', k' ∈ (assocSet d k v).map Prod.fst →
      k' ∈ d.map Prod.fst ∨ k' = k := by
  induction d with
  | nil => intro k' h; simp [assocSet] at h; exact Or.inr h
  | cons hd tl ih =>
    obtain ⟨k0, v0⟩ := hd
    intro k' h
    by_cases he : k0 = k
    · simp only [assocSet, he, if_true, List.map_cons, List.mem_cons] at h
      rcases h with h | h
      · exact Or.inr h
      · exact Or.inl (by simp [h])
    · simp only [assocSet, he, if_false, List.map_cons, List.mem_cons] at h
      rcases h with h | h
      · exact Or.inl (by simp [h])
      · rcases ih k' h with h' | h'
        · exact Or.inl (by simp [h'])
        · exact Or.inr h'

/-- Helper: `assocSet` preserves key uniqueness. -/
theorem assocSet_nodupKeys {α : Type} (d : List (String × α)) (k : String)
    (v : α) (h : (d.map Prod.fst).Nodup) :
    ((assocSet d k v).map Prod.fst).Nodup := by
  induction d with
  | nil => simp [assocSet]
  | cons hd tl ih =>
    obtain ⟨k0, v0⟩ := hd
    simp only [List.map_cons, List.nodup_cons] at h
    by_cases he : k0 = k
    · subst he
      simp only [assocSet, if_true, List.map_cons, List.nodup_cons]
      exact ⟨h.1, h.2⟩
    · simp only [assocSet, he, if_false, List.map_cons, List.nodup_cons]
      refine ⟨?_, ih h.2⟩
      intro hmem
      rcases assocSet_keys_sub tl k v k0 hmem with h' | h'
      · exact h.1 h'
      · exact he h'

mutual

/-- Helper: the extractor preserves key uniqueness of the buffer. -/
theorem gsEntries_nodupKeys : ∀ (es : Entries) (buf : Buf) (pp : String)
    (es' : Entries) (buf' : Buf),
    gsEntries es buf pp = some (es', buf') →
    (buf.map Prod.fst).Nodup → ((buf'.map Prod.fst)).Nodup
  | [], buf, _, es', buf', h, hn => by
    simp only [gsEntries, Option.some.injEq, Prod.mk.injEq] at h
    rw [← h.2]
    exact hn
  | (k, v) :: rest, buf, pp, es', buf', h, hn => by
    cases v with
    | arr a =>
      simp only [gsEntries] at h
      exact gsEntries_nodupKeys rest _ pp es' buf' h
        (assocSet_nodupKeys buf _ [a] hn)
    | dict es =>
      simp only [gsEntries] at h
      cases h1 : gsEntries es buf (childPath pp k) with
      | none => simp [h1] at h
      | some pr1 =>
        obtain ⟨es1, d1⟩ := pr1
        simp only [h1] at h
        cases h2 : gsEntries rest d1 pp with
        | none => simp [h2] at h
        | some pr2 =>
          obtain ⟨rest1, d2⟩ := pr2
          simp only [h2] at h
          simp only [Option.some.injEq, Prod.mk.injEq] at h
          rw [← h.2]
          exact gsEntries_nodupKeys rest d1 pp rest1 d2 h2
            (gsEntries_nodupKeys es buf (childPath pp k) es1 d1 h1 hn)
    | plist l =>
      cases l with
      | nil =>
        simp only [gsEntries] at h
        cases h2 : gsEntries rest buf pp with
        | none => simp [h2] at h
        | some pr2 =>
          obtain ⟨rest1, d2⟩ := pr2
          simp only [h2] at h
          simp only [Option.some.injEq, Prod.mk.injEq] at h
          rw [← h.2]
          exact gsEntries_nodupKeys rest buf pp rest1 d2 h2 hn
      | cons e0 tail =>
        cases e0 with
        | dict d0 =>
          simp only [gsEntries] at h
          cases h1 : gsElems (Val.dict d0 :: tail) 0 buf (childPath pp k) with
          | none => simp [h1] at h
          | some pr1 =>
            obtain ⟨l1, d1⟩ := pr1
            simp only [h1] at h
            cases h2 : gsEntries rest d1 pp with
            | none => simp [h2] at h
            | some pr2 =>
              obtain ⟨rest1, d2⟩ := pr2
              simp only [h2] at h
              simp only [Option.some.injEq, Prod.mk.injEq] at h
              rw [← h.2]
              exact gsEntries_nodupKeys rest d1 pp rest1 d2 h2
                (gsElems_nodupKeys (Val.dict d0 :: tail) 0 buf
                  (childPath pp k) l1 d1 h1 hn)
        | arr a =>
          simp only [gsEntries] at h
          cases h2 : gsEntries rest buf pp with
          | none => simp [h2] at h
          | some pr2 =>
            obtain ⟨rest1, d2⟩ := pr2
            simp only [h2] at h
            simp only [Option.some.injEq, Prod.mk.injEq] at h
            rw [← h.2]
            exact gsEntries_nodupKeys rest buf pp rest1 d2 h2 hn
        | plist m =>
          simp only [gsEntries] at h
          cases h2 : gsEntries rest buf pp with
          | none => simp [h2] at h
          | some pr2 =>
            obtain ⟨rest1, d2⟩ := pr2
            simp only [h2] at h
            simp only [Option.some.injEq, Prod.mk.injEq] at h
            rw [← h.2]
            exact gsEntries_nodupKeys rest buf pp rest1 d2 h2 hn
        | scalar e =>
          simp only [gsEntries] at h
          cases h2 : gsEntries rest buf pp with
          | none => simp [h2] at h
          | some pr2 =>
            obtain ⟨rest1, d2⟩ := pr2
            simp only [h2] at h
            simp only [Option.some.injEq, Prod.mk.injEq] at h
            rw [← h.2]
            exact gsEntries_nodupKeys rest buf pp rest1 d2 h2 hn
    | scalar e =>
      simp only [gsEntries] at h
      cases h2 : gsEntries rest buf pp with
      | none => simp [h2] at h
      | some pr2 =>
        obtain ⟨rest1, d2⟩ := pr2
        simp only [h2] at h
        simp only [Option.some.injEq, Prod.mk.injEq] at h
        rw [← h.2]
        exact gsEntries_nodupKeys rest buf pp rest1 d2 h2 hn

/-- Helper: the element loop preserves key uniqueness of the buffer. -/
theorem gsElems_nodupKeys : ∀ (l : List Val) (i : Nat) (buf : Buf)
    (fp : String) (l' : List Val) (buf' : Buf),
    gsElems l i buf fp = some (l', buf') →
    (buf.map Prod.fst).Nodup → ((buf'.map Prod.fst)).Nodup
  | [], _, buf, _, l', buf', h, hn => by
    simp only [gsElems, Option.some.injEq, Prod.mk.injEq] at h
    rw [← h.2]
    exact hn
  | e :: tail, i, buf, fp, l', buf', h, hn => by
    cases e with
    | dict es =>
      simp only [gsElems] at h
      cases h1 : gsEntries es buf (fp ++ "." ++ toString i) with
      | none => simp [h1] at h
      | some pr1 =>
        obtain ⟨es1, d1⟩ := pr1
        simp only [h1] at h
        cases h2 : gsElems tail (i + 1) d1 fp with
        | none => simp [h2] at h
        | some pr2 =>
          obtain ⟨tail1, d2⟩ := pr2
          simp only [h2] at h
          simp only [Option.some.injEq, Prod.mk.injEq] at h
          rw [← h.2]
          exact gsElems_nodupKeys tail (i + 1) d1 fp tail1 d2 h2
            (gsEntries_nodupKeys es buf (fp ++ "." ++ toString i) es1 d1 h1 hn)
    | arr a => simp only [gsElems] at h; exact Option.noConfusion h
    | plist m => simp only [gsElems] at h; exact Option.noConfusion h
    | scalar e => simp only [gsElems] at h; exact Option.noConfusion h

end

/-- Helper: `assocFind` after `assocSet` at the same key. -/
theorem assocFind_assocSet_self {α : Type} (d : List (String × α))
    (k : String) (v : α) : assocFind (assocSet d k v) k = some v := by
  induction d with
  | nil => simp [assocSet, assocFind]
  | cons hd tl ih =>
    obtain ⟨k0, v0⟩ := hd
    by_cases he : k0 = k
    · simp [assocSet, he, assocFind]
    · simp [assocSet, he, assocFind, ih]

/-- Helper: `assocFind` after `assocSet` at a different key. -/
theorem assocFind_assocSet_ne {α : Type} (d : List (String × α))
    (k k' : String) (v : α) (hne : k' ≠ k) :
    assocFind (assocSet d k v) k' = assocFind d k' := by
  induction d with
  | nil => simp [assocSet, assocFind, Ne.symm hne]
  | cons hd tl ih =>
    obtain ⟨k0, v0⟩ := hd
    by_cases he : k0 = k
    · subst he
      simp [assocSet, assocFind, Ne.symm hne]
    · simp [assocSet, he, assocFind, ih]

/-- Helper: the per-key write loop does not change keys it does not visit. -/
theorem applyTraceArrays_find_notmem (arrs : List (String × List (List Elem)))
    (cds : Buf) (b : Bool) (cds' : Buf) (u : Bool)
    (h : applyTraceArrays cds arrs b = some (cds', u))
    (k : String) (hk : k ∉ arrs.map Prod.fst) :
    assocFind cds' k = assocFind cds k := by
  induction arrs generalizing cds b with
  | nil =>
    simp only [applyTraceArrays, Option.some.injEq, Prod.mk.injEq] at h
    rw [← h.1]
  | cons hd rest ih =>
    obtain ⟨k0, c0⟩ := hd
    cases c0 with
    | nil =>
      simp only [applyTraceArrays] at h
      exact Option.noConfusion h
    | cons new tlc =>
      simp only [applyTraceArrays] at h
      simp only [List.map_cons, List.mem_cons, not_or] at hk
      obtain ⟨hk0, hkrest⟩ := hk
      by_cases hneed : updateArrayNeeded cds k0 new = true
      · rw [if_pos hneed] at h
        rw [ih (assocSet cds k0 [new]) true h hkrest]
        exact assocFind_assocSet_ne cds k0 k [new] hk0
      · rw [if_neg hneed] at h
        exact ih cds b h hkrest

/-- Helper: after the write loop, every visited key holds a column whose
head is the new array. -/
theorem applyTraceArrays_find (arrs : List (String × List (List Elem)))
    (cds : Buf) (b : Bool) (cds' : Buf) (u : Bool)
    (h : applyTraceArrays cds arrs b = some (cds', u))
    (hnd : (arrs.map Prod.fst).Nodup) :
    ∀ k c, (k, c) ∈ arrs →
      ∃ new tlc tl, c = new :: tlc ∧ assocFind cds' k = some (new :: tl) := by
  induction arrs generalizing cds b with
  | nil => intro k c hk; simp at hk
  | cons hd rest ih =>
    obtain ⟨k0, c0⟩ := hd
    cases c0 with
    | nil =>
      simp only [applyTraceArrays] at h
      exact Option.noConfusion h
    | cons new tlc =>
      simp only [applyTraceArrays] at h
      simp only [List.map_cons, List.nodup_cons] at hnd
      intro k c hk
      rcases List.mem_cons.mp hk with hk | hk
      · have hk1 : k = k0 := congrArg Prod.fst hk
        have hk2 : c = new :: tlc := congrArg Prod.snd hk
        subst hk1
        subst hk2
        by_cases hneed : updateArrayNeeded cds k new = true
        · rw [if_pos hneed] at h
          refine ⟨new, tlc, [], rfl, ?_⟩
          rw [applyTraceArrays_find_notmem rest _ true cds' u h k hnd.1]
          exact assocFind_assocSet_self cds k [new]
        · rw [if_neg hneed] at h
          simp only [updateArrayNeeded] at hneed
          cases hf : assocFind cds k with
          | none => rw [hf] at hneed; simp at hneed
          | some col =>
            rw [hf] at hneed
            cases col with
            | nil => simp at hneed
            | cons old tl =>
              simp only [decide_eq_true_eq, Decidable.not_not] at hneed
              subst hneed
              refine ⟨old, tlc, tl, rfl, ?_⟩
              rw [applyTraceArrays_find_notmem rest cds b cds' u h k hnd.1]
              exact hf
      · by_cases hneed : updateArrayNeeded cds k0 new = true
        · rw [if_pos hneed] at h
          exact ih _ true h hnd.2 k c hk
        · rw [if_neg hneed] at h
          exact ih cds b h hnd.2 k c hk

/-- Helper: when every visited key already holds the new head, the write
loop is a no-op reporting no update. -/
theorem applyTraceArrays_noop (arrs : List (String × List (List Elem)))
    (cds : Buf)
    (hall : ∀ k c, (k, c) ∈ arrs →
      ∃ new tlc tl, c = new :: tlc ∧ assocFind cds k = some (new :: tl)) :
    applyTraceArrays cds arrs false = some (cds, false) := by
  induction arrs with
  | nil => rfl
  | cons hd rest ih =>
    obtain ⟨k0, c0⟩ := hd
    obtain ⟨new, tlc, tl, hc, hf⟩ := hall k0 c0 (by simp)
    subst hc
    have hneed : updateArrayNeeded cds k0 new = false := by
      simp [updateArrayNeeded, hf]
    simp only [applyTraceArrays, hneed, Bool.false_eq_true, if_false]
    exact ih fun k c hk => hall k c (by simp [hk])

/-- Helper: running `_update_data_sources` twice with the same trace is a
no-op the second time: same stripped trace, unchanged buffer, no update. -/
theorem updateDataSources_idem (cds : Buf) (t t' : Entries) (cds' : Buf)
    (u : Bool) (h : updateDataSources cds t = some (t', cds', u)) :
    updateDataSources cds' t = some (t', cds', false) := by
  simp only [updateDataSources] at h ⊢
  cases hg : gsEntries t [] "" with
  | none => simp [hg] at h
  | some pr =>
    obtain ⟨t1, arrs⟩ := pr
    simp only [hg] at h ⊢
    cases ha : applyTraceArrays cds arrs false with
    | none => simp [ha] at h
    | some pr2 =>
      obtain ⟨cds1, u1⟩ := pr2
      simp only [ha, Option.some.injEq, Prod.mk.injEq] at h
      obtain ⟨h1, h2, h3⟩ := h
      rw [← h1, ← h2]
      have hnd : (arrs.map Prod.fst).Nodup :=
        gsEntries_nodupKeys t [] "" t1 arrs hg (by simp)
      have hno := applyTraceArrays_noop arrs cds1
        (applyTraceArrays_find arrs cds false cds1 u1 ha hnd)
      rw [hno]

/-- Helper: re-running the `_update` source loop on the sources it just
produced is a no-op: no new sources, no source updates, same traces. -/
theorem updateLoop_idem (ts : List Entries) (ss ex newS : List Buf)
    (us : Bool) (ts' : List Entries)
    (h : updateLoop ts ss = some (ex, newS, us, ts')) :
    updateLoop ts (ex ++ newS) = some (ex ++ newS, [], false, ts') := by
  induction ts generalizing ss ex newS us ts' with
  | nil =>
    simp only [updateLoop, Option.some.injEq, Prod.mk.injEq] at h
    obtain ⟨h1, h2, h3, h4⟩ := h
    rw [← h1, ← h2, ← h4]
    rfl
  | cons t ts ih =>
    cases ss with
    | cons s ss' =>
      simp only [updateLoop] at h
      cases hd : updateDataSources s t with
      | none => simp [hd] at h
      | some tri =>
        obtain ⟨t1, s1, u1⟩ := tri
        simp only [hd] at h
        cases hr : updateLoop ts ss' with
        | none => simp [hr] at h
        | some quad =>
          obtain ⟨ex1, new1, u2, ts1⟩ := quad
          simp only [hr, Option.some.injEq, Prod.mk.injEq] at h
          obtain ⟨he, hn, hu, ht⟩ := h
          rw [← he, ← hn, ← ht]
          have hds := updateDataSources_idem s t t1 s1 u1 hd
          have hih := ih ss' ex1 new1 u2 ts1 hr
          simp only [List.cons_append, updateLoop, List.append_eq, hds, hih, Bool.false_or]
    | nil =>
      simp only [updateLoop] at h
      cases hd : updateDataSources [] t with
      | none => simp [hd] at h
      | some tri =>
        obtain ⟨t1, s1, u1⟩ := tri
        simp only [hd] at h
        cases hr : updateLoop ts [] with
        | none => simp [hr] at h
        | some quad =>
          obtain ⟨ex1, new1, u2, ts1⟩ := quad
          simp only [hr, Option.some.injEq, Prod.mk.injEq] at h
          obtain ⟨he, hn, hu, ht⟩ := h
          rw [← he, ← hn, ← ht]
          have hds := updateDataSources_idem [] t t1 s1 u1 hd
          have hex : ex1 = [] := by
            have hlen := (updateLoop_lengths ts [] ex1 new1 u2 ts1 hr).1
            exact List.eq_nil_of_length_eq_zero (by simpa using hlen)
          subst hex
          have hih := ih [] [] new1 u2 ts1 hr
          simp only [List.nil_append] at hih ⊢
          simp only [updateLoop, List.append_eq, hds, hih, Bool.false_or]

mutual

theorem Val.beq_refl : ∀ a : Val, Val.beq a a = true
  | .arr a => by simp [Val.beq]
  | .scalar e => by simp [Val.beq]
  | .plist l => by simp [Val.beq, Val.beqList_refl l]
  | .dict d => by simp [Val.beq, Val.beqEntries_refl d]

theorem Val.beqList_refl : ∀ l : List Val, Val.beqList l l = true
  | [] => rfl
  | x :: xs => by simp [Val.beqList, Val.beq_refl x, Val.beqList_refl xs]

theorem Val.beqEntries_refl : ∀ d : Entries, Val.beqEntries d d = true
  | [] => rfl
  | (k, v) :: xs => by
    simp [Val.beqEntries, Val.beq_refl v, Val.beqEntries_refl xs]

end

/-- Helper: the trace comparison loop on identical lists reports no
difference. -/
theorem tracesDiffer_refl (l : List Entries) : tracesDiffer l l = false := by
  induction l with
  | nil => rfl
  | cons t ts ih => simp [tracesDiffer, Val.beqEntries_refl, ih]

/-- Claim C6: two successive renders of the same figure: after an update
has been applied, running `_update` again with the identical serialized
figure is a no-op — it produces no data, layout, sizing or source update
and leaves the model (in particular its render count) exactly unchanged. -/
theorem c6_second_render_noop (fig : Fig) (sz : Option String) (rc : Nat)
    (m m' : Model)
    (h : update { object := some fig, sizingMode := sz, renderCount := rc } m
      = some m') :
    update { object := some fig, sizingMode := sz, renderCount := rc } m'
      = some m' := by
  simp only [update] at h ⊢
  cases hq : updateLoop (plotlyJsonWrapper fig).data m.data_sources with
  | none => rw [hq] at h; exact Option.noConfusion h
  | some quad =>
    obtain ⟨ex, newS, us, trs⟩ := quad
    simp only [hq, Option.some.injEq] at h
    have hdata : m'.data = if (if trs.length ≠ m.data.length then true
        else tracesDiffer trs m.data) = true then trs else m.data := by
      rw [← h]
    have hlay : m'.layout = if (!Val.beqEntries m.layout
        (plotlyJsonWrapper fig).layout) = true
        then (plotlyJsonWrapper fig).layout else m.layout := by
      rw [← h]
    have hsrc : m'.data_sources = ex ++ newS := by rw [← h]
    have hsiz : m'.sizing_mode =
        match (if (decide (sz = none)
              && (assocFind (plotlyJsonWrapper fig).layout "autosize").isSome)
              = true then
            if ((match assocFind (plotlyJsonWrapper fig).layout "autosize" with
                | some v => truthy v
                | none => false)
                && decide (m.sizing_mode ≠ some "stretch_both")) = true then
              some "stretch_both"
            else if ((!match assocFind (plotlyJsonWrapper fig).layout
                    "autosize" with
                | some v => truthy v
                | none => false)
                && decide (m.sizing_mode ≠ some "fixed")) = true then
              some "fixed"
            else none
          else none) with
        | some s => some s
        | none => m.sizing_mode := by
      rw [← h]
    rw [hsrc]
    have hq2 := updateLoop_idem _ _ _ _ _ _ hq
    simp only [hq2]
    have hud2 : (if trs.length ≠ m'.data.length then true
        else tracesDiffer trs m'.data) = false := by
      rw [hdata]
      by_cases hud1 : (if trs.length ≠ m.data.length then true
          else tracesDiffer trs m.data) = true
      · simp [hud1, tracesDiffer_refl]
      · simp only [Bool.not_eq_true] at hud1
        simp [hud1]
    have hul2 : (!Val.beqEntries m'.layout (plotlyJsonWrapper fig).layout)
        = false := by
      rw [hlay]
      by_cases hbeq : Val.beqEntries m.layout (plotlyJsonWrapper fig).layout
          = true
      · simp [hbeq]
      · simp only [Bool.not_eq_true] at hbeq
        simp [hbeq, Val.beqEntries_refl]
    have hsz2 : (if (decide (sz = none)
          && (assocFind (plotlyJsonWrapper fig).layout "autosize").isSome)
          = true then
        if ((match assocFind (plotlyJsonWrapper fig).layout "autosize" with
            | some v => truthy v
            | none => false)
            && decide (m'.sizing_mode ≠ some "stretch_both")) = true then
          some "stretch_both"
        else if ((!match assocFind (plotlyJsonWrapper fig).layout
                "autosize" with
            | some v => truthy v
            | none => false)
            && decide (m'.sizing_mode ≠ some "fixed")) = true then
          some "fixed"
        else none
      else none) = none := by
      by_cases hc : (decide (sz = none)
          && (assocFind (plotlyJsonWrapper fig).layout "autosize").isSome)
          = true
      · rw [hsiz]
        by_cases hav : (match assocFind (plotlyJsonWrapper fig).layout
              "autosize" with
            | some v => truthy v
            | none => false) = true
        · by_cases hst : m.sizing_mode = some "stretch_both" <;>
            simp [hc, hav, hst]
        · simp only [Bool.not_eq_true] at hav
          by_cases hfx : m.sizing_mode = some "fixed" <;>
            simp [hc, hav, hfx]
      · simp [hc]
    rw [hud2, hul2, hsz2]
    simp only [Bool.or_false, Bool.false_or, Option.isSome_none,
      List.isEmpty_nil, Bool.not_true, List.append_nil, Bool.false_eq_true,
      if_false]
    rw [← hsrc]

/-- Claim C6, witness at a concrete input: a one-trace figure rendered
into an empty model, then rendered again. -/
theorem c6_second_render_noop_witness :
    (update { object := some (Fig.mk [[("x", Val.arr [.int 1])]] []),
              sizingMode := none, renderCount := 0 }
        { data := [], layout := [], data_sources := [],
          sizing_mode := none, render_count := 0 }
      = some { data := [[]], layout := [],
               data_sources := [[("x", [[Elem.int 1]])]],
               sizing_mode := none, render_count := 1 }) ∧
    (update { object := some (Fig.mk [[("x", Val.arr [.int 1])]] []),
              sizingMode := none, renderCount := 0 }
        { data := [[]], layout := [],
          data_sources := [[("x", [[Elem.int 1]])]],
          sizing_mode := none, render_count := 1 }
      = some { data := [[]], layout := [],
               data_sources := [[("x", [[Elem.int 1]])]],
               sizing_mode := none, render_count := 1 }) := by
  have h : update
        { object := some (Fig.mk [[("x", Val.arr [.int 1])]] []),
          sizingMode := none, renderCount := 0 }
        { data := [], layout := [], data_sources := [],
          sizing_mode := none, render_count := 0 }
      = some { data := [[]], layout := [],
               data_sources := [[("x", [[Elem.int 1]])]],
               sizing_mode := none, render_count := 1 } := by
    simp [update, updateLoop, updateDataSources, gsEntries, applyTraceArrays,
      updateArrayNeeded, assocSet, assocFind, Val.beqEntries, tracesDiffer,
      childPath, plotlyJsonWrapper, normalizeDatetime, isdatetime]
  exact ⟨h, c6_second_render_noop (Fig.mk [[("x", Val.arr [.int 1])]] [])
    none 0 _ _ h⟩

/-- Claim C8: at the failing input — a widget tree whose plot widget `p1`
is outside any Tabs and whose plot widget `p2` sits inside the Tabs `t` —
the hook processes `p1` first, finds no enclosing Tabs, and executes
`return`, so the whole pass ends with no callback installed and no
visibility set: `p2` is left unpatched even though it lies inside `t`.
Had the loop continued (as the spec's "skip silently" requires),
processing `p2` alone would have installed the binding `(t, p2, 0)`. -/
theorem c8_early_return_bug :
    patchTabsPlotly
        (BTree.node "r" [BTree.plotW "p1",
          BTree.tabs "t" 0 [BTree.node "tab0" [BTree.plotW "p2"]]])
        ⟨[], []⟩
      = ⟨[], []⟩ ∧
    btContains (BTree.tabs "t" 0 [BTree.node "tab0" [BTree.plotW "p2"]]) "p2"
      = true ∧
    collectPlotly (BTree.node "r" [BTree.plotW "p1",
        BTree.tabs "t" 0 [BTree.node "tab0" [BTree.plotW "p2"]]])
      = ["p1", "p2"] ∧
    patchLoop [BTree.tabs "t" 0 [BTree.node "tab0" [BTree.plotW "p2"]]]
        ⟨[], []⟩ ["p2"]
      = ⟨[("t", "p2", 0)], [("p2", true)]⟩ := by
  refine ⟨?_, ?_, ?_, ?_⟩
  · simp [patchTabsPlotly, patchLoop, collectTabs, collectTabsList,
      collectPlotly, collectPlotlyList, innermostTabs, btContains,
      btContainsList, btId, tabsChildren, tabsActive, tabIndexOf]
  · simp [btContains, btContainsList]
  · simp [collectPlotly, collectPlotlyList]
  · simp [patchLoop, innermostTabs, btContains, btContainsList, btId,
      tabsChildren, tabsActive, tabIndexOf]

/-- Helper: `Nat.toDigitsCore` with enough fuel produces the decimal
digits before the accumulator. -/
theorem toDigitsCore_eq_decDigits :
    ∀ (f n : Nat) (acc : List Char), n < f →
      Nat.toDigitsCore 10 f n acc = decDigits n ++ acc := by
  intro f
  induction f with
  | zero => intro n acc h; omega
  | succ f ih =>
    intro n acc h
    simp only [Nat.toDigitsCore]
    by_cases h0 : n / 10 = 0
    · have hn : n < 10 := by omega
      rw [if_pos h0, decDigits, dif_pos hn, Nat.mod_eq_of_lt hn]
      rfl
    · have hn : ¬n < 10 := by omega
      rw [if_neg h0, ih (n / 10) _ (by omega)]
      conv_rhs => rw [decDigits]
      rw [dif_neg hn]
      simp

/-- Helper: the characters of `toString (n : Nat)` are its decimal
digits. -/
theorem natToString_data (n : Nat) : (toString n).data = decDigits n := by
  show (Nat.repr n).data = decDigits n
  rw [Nat.repr, Nat.toDigits, toDigitsCore_eq_decDigits (n + 1) n []
    (by omega), List.append_nil]
  rfl

/-- Helper: digit value of a digit character. -/
theorem digitVal_digitChar (d : Nat) (h : d < 10) :
    digitVal (Nat.digitChar d) = d := by
  interval_cases d <;> rfl

/-- Helper: decimal parsing inverts `decDigits`. -/
theorem parseDec_decDigits (n : Nat) : parseDec (decDigits n) = n := by
  induction n using Nat.strong_induction_on with
  | _ n ih =>
    by_cases h : n < 10
    · rw [decDigits, dif_pos h]
      simp [parseDec, digitVal_digitChar n h]
    · rw [decDigits, dif_neg h]
      have hdiv : n / 10 < n := Nat.div_lt_self (by omega) (by omega)
      have := ih (n / 10) hdiv
      simp only [parseDec, List.foldl_append, List.foldl_cons,
        List.foldl_nil] at this ⊢
      rw [this, digitVal_digitChar (n % 10) (by omega)]
      omega

/-- Helper: decimal rendering of naturals is injective. -/
theorem natToString_inj (m n : Nat) (h : toString m = toString n) :
    m = n := by
  have hd : decDigits m = decDigits n := by
    rw [← natToString_data, ← natToString_data, h]
  rw [← parseDec_decDigits m, ← parseDec_decDigits n, hd]

/-- Helper: digit characters are never the path separator. -/
theorem digitChar_ne_dot (d : Nat) (h : d < 10) :
    Nat.digitChar d ≠ '.' := by
  interval_cases d <;> decide

/-- Helper: boolean `contains` is false iff the element is absent. -/
theorem contains_eq_false_iff {α : Type} [BEq α] [LawfulBEq α] {l : List α}
    {a : α} : l.contains a = false ↔ a ∉ l := by
  rw [Bool.eq_false_iff]
  exact not_congr List.elem_iff

/-- Helper: decimal digit lists are nonempty and dot-free. -/
theorem decDigits_ok (n : Nat) :
    decDigits n ≠ [] ∧ (decDigits n).contains '.' = false := by
  induction n using Nat.strong_induction_on with
  | _ n ih =>
    by_cases h : n < 10
    · rw [decDigits, dif_pos h]
      refine ⟨by simp, ?_⟩
      have hne := digitChar_ne_dot n h
      rw [contains_eq_false_iff]
      simp [Ne.symm hne]
    · rw [decDigits, dif_neg h]
      have hdiv : n / 10 < n := Nat.div_lt_self (by omega) (by omega)
      obtain ⟨ih1, ih2⟩ := ih (n / 10) hdiv
      refine ⟨by simp, ?_⟩
      have hlast := digitChar_ne_dot (n % 10) (by omega)
      rw [contains_eq_false_iff] at ih2 ⊢
      simp only [List.mem_append, List.mem_singleton, not_or]
      exact ⟨ih2, Ne.symm hlast⟩

/-- Helper: rendering from `pp` along a cons path steps the prefix. -/
theorem renderPathFrom_cons (pp : String) (e : PElem) (P : Path) :
    renderPathFrom pp (e :: P) = renderPathFrom (extendPath pp e) P := rfl

/-- Helper: rendering splits over path concatenation. -/
theorem renderPathFrom_append (pp : String) (P Q : Path) :
    renderPathFrom pp (P ++ Q) = renderPathFrom (renderPathFrom pp P) Q :=
  List.foldl_append ..

/-- Helper: buffer-write replay splits over concatenation. -/
theorem applyBufWrites_append (buf : Buf)
    (ws1 ws2 : List (String × List Elem)) :
    applyBufWrites buf (ws1 ++ ws2)
      = applyBufWrites (applyBufWrites buf ws1) ws2 :=
  List.foldl_append ..

/-- Helper: unfolding `renderedCollect` at a cons entry. -/
theorem renderedCollect_cons (k : String) (v : Val) (es : Entries)
    (pp : String) :
    renderedCollect ((k, v) :: es) pp
      = renderedCollectVal v (childPath pp k) ++ renderedCollect es pp := by
  simp only [renderedCollect, renderedCollectVal, collectPaths,
    List.map_append, List.map_map]
  rfl

/-- Helper: `renderedCollectVal` on an array is a single write at the
prefix itself. -/
theorem renderedCollectVal_arr (a : List Elem) (pp : String) :
    renderedCollectVal (Val.arr a) pp = [(pp, a)] := rfl

/-- Helper: `renderedCollectVal` on a dict. -/
theorem renderedCollectVal_dict (d : Entries) (pp : String) :
    renderedCollectVal (Val.dict d) pp = renderedCollect d pp := rfl

/-- Helper: `renderedCollectVal` on a list of dicts. -/
theorem renderedCollectVal_plist (e0 : Entries) (tl : List Val)
    (pp : String) :
    renderedCollectVal (Val.plist (Val.dict e0 :: tl)) pp
      = renderedCollectElems (Val.dict e0 :: tl) 0 pp := rfl

/-- Helper: unfolding `renderedCollectElems` at a cons element. -/
theorem renderedCollectElems_cons (v : Val) (tl : List Val) (i : Nat)
    (fp : String) :
    renderedCollectElems (v :: tl) i fp
      = renderedCollectVal v (fp ++ "." ++ toString i)
        ++ renderedCollectElems tl (i + 1) fp := by
  simp only [renderedCollectElems, renderedCollectVal, collectPathsElems,
    List.map_append, List.map_map]
  rfl

mutual

/-- Helper: on well-formed entries the extractor succeeds and acts as
"strip the arrays, replay the collected writes". -/
theorem gsEntries_spec : ∀ (es : Entries), wfEntries es = true →
    ∀ (buf : Buf) (pp : String),
    gsEntries es buf pp
      = some (stripEntries es, applyBufWrites buf (renderedCollect es pp))
  | [], _, buf, pp => by
    simp [gsEntries, stripEntries, renderedCollect, collectPaths,
      applyBufWrites]
  | (k, v) :: es, hwf, buf, pp => by
    simp only [wfEntries, Bool.and_eq_true] at hwf
    obtain ⟨⟨⟨hk, hnc⟩, hv⟩, hes⟩ := hwf
    cases v with
    | arr a =>
      have h1 := gsEntries_spec es hes (assocSet buf (childPath pp k) [a]) pp
      simp only [gsEntries, h1]
      rw [renderedCollect_cons, renderedCollectVal_arr,
        applyBufWrites_append]
      simp only [stripEntries]
      rfl
    | scalar e =>
      have h1 := gsEntries_spec es hes buf pp
      simp only [gsEntries, h1]
      rw [renderedCollect_cons]
      simp only [stripEntries, stripVal, renderedCollectVal,
        collectPathsVal, List.map_nil, List.nil_append]
    | dict d =>
      simp only [wfVal] at hv
      have h1 := gsEntries_spec d hv buf (childPath pp k)
      have h2 := gsEntries_spec es hes
        (applyBufWrites buf (renderedCollect d (childPath pp k))) pp
      simp only [gsEntries, h1, h2]
      rw [renderedCollect_cons, renderedCollectVal_dict,
        applyBufWrites_append]
      simp only [stripEntries, stripVal]
    | plist l =>
      simp only [wfVal, Bool.and_eq_true] at hv
      obtain ⟨hhom, hwl⟩ := hv
      cases l with
      | nil =>
        have h1 := gsEntries_spec es hes buf pp
        simp only [gsEntries, h1]
        rw [renderedCollect_cons]
        simp only [stripEntries, stripVal, renderedCollectVal,
          collectPathsVal, List.map_nil, List.nil_append]
      | cons e0 tl =>
        cases e0 with
        | dict d0 =>
          have h1 := gsElems_spec (Val.dict d0 :: tl) hhom hwl 0 buf
            (childPath pp k)
          have h2 := gsEntries_spec es hes
            (applyBufWrites buf
              (renderedCollectElems (Val.dict d0 :: tl) 0 (childPath pp k)))
            pp
          simp only [gsEntries, h1, h2]
          rw [renderedCollect_cons, renderedCollectVal_plist,
            applyBufWrites_append]
          simp only [stripEntries, stripVal]
        | arr a =>
          have h1 := gsEntries_spec es hes buf pp
          simp only [gsEntries, h1]
          rw [renderedCollect_cons]
          simp only [stripEntries, stripVal, renderedCollectVal,
            collectPathsVal, List.map_nil, List.nil_append]
        | scalar e =>
          have h1 := gsEntries_spec es hes buf pp
          simp only [gsEntries, h1]
          rw [renderedCollect_cons]
          simp only [stripEntries, stripVal, renderedCollectVal,
            collectPathsVal, List.map_nil, List.nil_append]
        | plist m =>
          have h1 := gsEntries_spec es hes buf pp
          simp only [gsEntries, h1]
          rw [renderedCollect_cons]
          simp only [stripEntries, stripVal, renderedCollectVal,
            collectPathsVal, List.map_nil, List.nil_append]

/-- Helper: on a well-formed list of dicts the element loop succeeds and
acts as "strip, replay collected writes". -/
theorem gsElems_spec : ∀ (l : List Val), l.all isDictB = true →
    wfList l = true → ∀ (i : Nat) (buf : Buf) (fp : String),
    gsElems l i buf fp
      = some (stripElems l, applyBufWrites buf (renderedCollectElems l i fp))
  | [], _, _, i, buf, fp => by
    simp [gsElems, stripElems, renderedCollectElems, collectPathsElems,
      applyBufWrites]
  | v :: tl, hall, hwf, i, buf, fp => by
    simp only [List.all_cons, Bool.and_eq_true] at hall
    obtain ⟨hd, htl⟩ := hall
    simp only [wfList, Bool.and_eq_true] at hwf
    obtain ⟨hv, hwtl⟩ := hwf
    cases v with
    | dict d =>
      simp only [wfVal] at hv
      have h1 := gsEntries_spec d hv buf (fp ++ "." ++ toString i)
      have h2 := gsElems_spec tl htl hwtl (i + 1)
        (applyBufWrites buf (renderedCollect d (fp ++ "." ++ toString i))) fp
      simp only [gsElems, h1, h2]
      rw [renderedCollectElems_cons, renderedCollectVal_dict,
        applyBufWrites_append]
      simp only [stripElems, stripVal]
    | arr a => simp [isDictB] at hd
    | scalar e => simp [isDictB] at hd
    | plist m => simp [isDictB] at hd

end

/-- Helper: `assocFind` finds only entries of the list. -/
theorem mem_of_assocFind {α : Type} {l : List (String × α)} {k : String}
    {v : α} (h : assocFind l k = some v) : (k, v) ∈ l := by
  induction l with
  | nil => simp [assocFind] at h
  | cons hd tl ih =>
    obtain ⟨k0, v0⟩ := hd
    by_cases he : k0 = k
    · subst he
      have h' : v0 = v := by simpa [assocFind] using h
      subst h'
      exact List.mem_cons_self ..
    · simp only [assocFind, if_neg he] at h
      exact List.mem_cons_of_mem _ (ih h)

/-- Helper: with unique keys, membership determines `assocFind`. -/
theorem assocFind_of_mem {α : Type} {l : List (String × α)} {k : String}
    {v : α} (hnd : (l.map Prod.fst).Nodup) (h : (k, v) ∈ l) :
    assocFind l k = some v := by
  induction l with
  | nil => simp at h
  | cons hd tl ih =>
    obtain ⟨k0, v0⟩ := hd
    simp only [List.map_cons, List.nodup_cons] at hnd
    rcases List.mem_cons.mp h with h | h
    · have h1 : k = k0 := congrArg Prod.fst h
      have h2 : v = v0 := congrArg Prod.snd h
      subst h1
      subst h2
      simp [assocFind]
    · by_cases he : k0 = k
      · subst he
        exact absurd (by simpa using List.mem_map_of_mem Prod.fst h) hnd.1
      · simp only [assocFind, if_neg he]
        exact ih hnd.2 h

/-- Helper: `assocFind` is `none` exactly off the key set. -/
theorem assocFind_eq_none_iff {α : Type} {l : List (String × α)}
    {k : String} : assocFind l k = none ↔ k ∉ l.map Prod.fst := by
  induction l with
  | nil => simp [assocFind]
  | cons hd tl ih =>
    obtain ⟨k0, v0⟩ := hd
    by_cases he : k0 = k
    · subst he
      simp [assocFind]
    · simp [assocFind, he, ih, Ne.symm he]

/-- Helper: well-formed entries have unique keys. -/
theorem wfEntries_nodupKeys {es : Entries} (h : wfEntries es = true) :
    (es.map Prod.fst).Nodup := by
  induction es with
  | nil => simp
  | cons hd tl ih =>
    obtain ⟨k, v⟩ := hd
    simp only [wfEntries, Bool.and_eq_true] at h
    obtain ⟨⟨⟨hk, hnc⟩, hv⟩, hes⟩ := h
    simp only [List.map_cons, List.nodup_cons]
    refine ⟨?_, ih hes⟩
    simp only [Bool.not_eq_true'] at hnc
    exact contains_eq_false_iff.mp hnc

/-- Helper: values found in well-formed entries are well-formed. -/
theorem wf_find {es : Entries} {k : String} {v : Val}
    (hwf : wfEntries es = true) (h : assocFind es k = some v) :
    wfVal v = true ∧ keyOk k = true := by
  induction es with
  | nil => simp [assocFind] at h
  | cons hd tl ih =>
    obtain ⟨k0, v0⟩ := hd
    simp only [wfEntries, Bool.and_eq_true] at hwf
    obtain ⟨⟨⟨hk, hnc⟩, hv⟩, hes⟩ := hwf
    by_cases he : k0 = k
    · subst he
      have h' : v0 = v := by simpa [assocFind] using h
      subst h'
      exact ⟨hv, hk⟩
    · simp only [assocFind, if_neg he] at h
      exact ih hes h

/-- Helper: elements of a well-formed list are well-formed. -/
theorem wf_get {l : List Val} {i : Nat} {v : Val}
    (hwf : wfList l = true) (h : l.get? i = some v) : wfVal v = true := by
  induction l generalizing i with
  | nil => simp at h
  | cons hd tl ih =>
    simp only [wfList, Bool.and_eq_true] at hwf
    cases i with
    | zero =>
      simp only [List.get?_eq_getElem?, List.getElem?_cons_zero,
        Option.some.injEq] at h
      subst h
      exact hwf.1
    | succ j =>
      simp only [List.get?_eq_getElem?, List.getElem?_cons_succ] at h
      exact ih hwf.2 (by simpa using h)

/-- Helper: a found entry contributes its collected paths, prefixed by
its key. -/
theorem find_mem_collect {es : Entries} {k : String} {w : Val}
    (h : assocFind es k = some w) {ps : Path} {a : List Elem}
    (hm : (ps, a) ∈ collectPathsVal w) :
    (PElem.key k :: ps, a) ∈ collectPaths es := by
  induction es with
  | nil => simp [assocFind] at h
  | cons hd tl ih =>
    obtain ⟨k0, v0⟩ := hd
    by_cases he : k0 = k
    · subst he
      have h' : v0 = w := by simpa [assocFind] using h
      subst h'
      simp only [collectPaths, List.mem_append]
      exact Or.inl (List.mem_map_of_mem _ hm)
    · simp only [assocFind, if_neg he] at h
      simp only [collectPaths, List.mem_append]
      exact Or.inr (ih h)

/-- Helper: a list element contributes its collected paths, prefixed by
its index. -/
theorem get_mem_collectElems : ∀ (l : List Val) (j i : Nat) (w : Val)
    (ps : Path) (a : List Elem), l.get? j = some w →
    (ps, a) ∈ collectPathsVal w →
    (PElem.idx (i + j) :: ps, a) ∈ collectPathsElems l i := by
  intro l
  induction l with
  | nil => intro j i w ps a h; simp at h
  | cons hd tl ih =>
    intro j i w ps a h hm
    cases j with
    | zero =>
      have h' : hd = w := by simpa using h
      subst h'
      simp only [collectPathsElems, List.mem_append, Nat.add_zero]
      exact Or.inl (List.mem_map_of_mem _ hm)
    | succ j' =>
      simp only [List.get?_eq_getElem?, List.getElem?_cons_succ] at h
      have := ih j' (i + 1) w ps a (by simpa using h) hm
      simp only [collectPathsElems, List.mem_append]
      right
      have harith : i + 1 + j' = i + (j' + 1) := by omega
      rw [← harith]
      exact this

/-- Helper: every extraction-reachable array position is collected. -/
theorem elookup_mem_collect : ∀ (P : Path) (v : Val) (a : List Elem),
    elookupVal v P = some (Val.arr a) → (P, a) ∈ collectPathsVal v := by
  intro P
  induction P with
  | nil =>
    intro v a h
    have h' : v = Val.arr a := by simpa [elookupVal] using h
    subst h'
    simp [collectPathsVal]
  | cons e ps ih =>
    intro v a h
    cases e with
    | key k =>
      cases v with
      | dict es =>
        simp only [elookupVal] at h
        cases hf : assocFind es k with
        | none => rw [hf] at h; exact Option.noConfusion h
        | some w =>
          rw [hf] at h
          exact find_mem_collect hf (ih w a h)
      | arr b => simp [elookupVal] at h
      | scalar s => simp [elookupVal] at h
      | plist l =>
        cases l with
        | nil => simp [elookupVal] at h
        | cons e0 tl =>
          cases e0 <;> simp [elookupVal] at h
    | idx i =>
      cases v with
      | plist l =>
        cases l with
        | nil => simp [elookupVal] at h
        | cons e0 tl =>
          cases e0 with
          | dict d0 =>
            simp only [elookupVal] at h
            cases hg : (Val.dict d0 :: tl).get? i with
            | none => rw [hg] at h; exact Option.noConfusion h
            | some w =>
              rw [hg] at h
              have := get_mem_collectElems (Val.dict d0 :: tl) i 0 w ps a
                hg (ih w a h)
              simpa [collectPathsVal] using this
          | arr b => simp [elookupVal] at h
          | scalar s => simp [elookupVal] at h
          | plist m => simp [elookupVal] at h
      | dict es => simp [elookupVal] at h
      | arr b => simp [elookupVal] at h
      | scalar s => simp [elookupVal] at h

/-- Helper: collected entry paths start with a key of the entry list. -/
theorem collectPaths_head {es : Entries} {P : Path} {a : List Elem}
    (h : (P, a) ∈ collectPaths es) :
    ∃ k P', P = PElem.key k :: P' ∧ k ∈ es.map Prod.fst := by
  induction es with
  | nil => simp [collectPaths] at h
  | cons hd tl ih =>
    obtain ⟨k0, v0⟩ := hd
    simp only [collectPaths, List.mem_append] at h
    rcases h with h | h
    · obtain ⟨pa, hpa, heq⟩ := List.mem_map.mp h
      refine ⟨k0, pa.1, ?_, by simp⟩
      have := congrArg Prod.fst heq
      simpa using this.symm
    · obtain ⟨k, P', hP, hk⟩ := ih h
      exact ⟨k, P', hP, by simp [hk]⟩

/-- Helper: collected element paths start with an index at least `i`. -/
theorem collectPathsElems_head : ∀ {l : List Val} {i : Nat} {P : Path}
    {a : List Elem}, (P, a) ∈ collectPathsElems l i →
    ∃ j P' w, P = PElem.idx j :: P' ∧ i ≤ j ∧ l.get? (j - i) = some w ∧
      (P', a) ∈ collectPathsVal w := by
  intro l
  induction l with
  | nil => intro i P a h; simp [collectPathsElems] at h
  | cons hd tl ih =>
    intro i P a h
    simp only [collectPathsElems, List.mem_append] at h
    rcases h with h | h
    · obtain ⟨pa, hpa, heq⟩ := List.mem_map.mp h
      refine ⟨i, pa.1, hd, ?_, le_refl i, by simp, ?_⟩
      · have := congrArg Prod.fst heq
        simpa using this.symm
      · have hsnd : pa.2 = a := congrArg Prod.snd heq
        rw [← hsnd]
        exact hpa
    · obtain ⟨j, P', w, hP, hij, hget, hm⟩ := ih h
      refine ⟨j, P', w, hP, by omega, ?_, hm⟩
      have hj : j - i = (j - (i + 1)) + 1 := by omega
      rw [hj]
      simpa using hget

mutual

/-- Helper: every collected position of a well-formed value is
extraction-reachable with the collected array. -/
theorem collect_sound_val : ∀ (v : Val), wfVal v = true →
    ∀ (P : Path) (a : List Elem), (P, a) ∈ collectPathsVal v →
    elookupVal v P = some (Val.arr a)
  | Val.arr b, _, P, a, h => by
    simp only [collectPathsVal, List.mem_singleton] at h
    have h1 : P = [] := congrArg Prod.fst h
    have h2 : a = b := congrArg Prod.snd h
    subst h1; subst h2
    rfl
  | Val.scalar e, _, P, a, h => by simp [collectPathsVal] at h
  | Val.dict es, hwf, P, a, h => by
    simp only [wfVal] at hwf
    exact collect_sound_entries es hwf P a h
  | Val.plist l, hwf, P, a, h => by
    simp only [wfVal, Bool.and_eq_true] at hwf
    obtain ⟨hhom, hwl⟩ := hwf
    cases l with
    | nil => simp [collectPathsVal] at h
    | cons e0 tl =>
      cases e0 with
      | dict d0 =>
        simp only [collectPathsVal] at h
        obtain ⟨j, w, P', hP, hij, hget, hel⟩ :=
          collect_sound_elems (Val.dict d0 :: tl) hwl 0 P a h
        subst hP
        simp only [Nat.sub_zero] at hget
        simp only [elookupVal, hget]
        exact hel
      | arr b => simp [collectPathsVal] at h
      | scalar s => simp [collectPathsVal] at h
      | plist m => simp [collectPathsVal] at h

/-- Helper: entry-level version of `collect_sound_val`. -/
theorem collect_sound_entries : ∀ (es : Entries), wfEntries es = true →
    ∀ (P : Path) (a : List Elem), (P, a) ∈ collectPaths es →
    elookupVal (Val.dict es) P = some (Val.arr a)
  | [], _, P, a, h => by simp [collectPaths] at h
  | (k0, v0) :: es, hwf, P, a, h => by
    simp only [wfEntries, Bool.and_eq_true] at hwf
    obtain ⟨⟨⟨hk, hnc⟩, hv⟩, hes⟩ := hwf
    simp only [collectPaths, List.mem_append] at h
    rcases h with h | h
    · obtain ⟨pa, hpa, heq⟩ := List.mem_map.mp h
      have h1 : P = PElem.key k0 :: pa.1 := by
        have := congrArg Prod.fst heq
        simpa using this.symm
      have h2 : a = pa.2 := by
        have := congrArg Prod.snd heq
        simpa using this.symm
      subst h1
      subst h2
      simp only [elookupVal, assocFind, if_pos rfl]
      exact collect_sound_val v0 hv pa.1 pa.2 hpa
    · obtain ⟨k, P', hP, hkmem⟩ := collectPaths_head h
      subst hP
      have hne : k0 ≠ k := by
        intro hcon
        subst hcon
        simp only [Bool.not_eq_true'] at hnc
        exact contains_eq_false_iff.mp hnc hkmem
      have := collect_sound_entries es hes _ a h
      simp only [elookupVal, assocFind, if_neg hne] at this ⊢
      exact this

/-- Helper: element-level version of `collect_sound_val`. -/
theorem collect_sound_elems : ∀ (l : List Val), wfList l = true →
    ∀ (i : Nat) (P : Path) (a : List Elem), (P, a) ∈ collectPathsElems l i →
    ∃ j w P', P = PElem.idx j :: P' ∧ i ≤ j ∧ l.get? (j - i) = some w ∧
      elookupVal w P' = some (Val.arr a)
  | [], _, i, P, a, h => by simp [collectPathsElems] at h
  | hd :: tl, hwf, i, P, a, h => by
    simp only [wfList, Bool.and_eq_true] at hwf
    obtain ⟨hhd, htl⟩ := hwf
    simp only [collectPathsElems, List.mem_append] at h
    rcases h with h | h
    · obtain ⟨pa, hpa, heq⟩ := List.mem_map.mp h
      have h1 : P = PElem.idx i :: pa.1 := by
        have := congrArg Prod.fst heq
        simpa using this.symm
      have h2 : a = pa.2 := by
        have := congrArg Prod.snd heq
        simpa using this.symm
      subst h1
      subst h2
      exact ⟨i, hd, pa.1, rfl, le_refl i, by simp,
        collect_sound_val hd hhd pa.1 pa.2 hpa⟩
    · obtain ⟨j, w, P', hP, hij, hget, hel⟩ :=
        collect_sound_elems tl htl (i + 1) P a h
      refine ⟨j, w, P', hP, by omega, ?_, hel⟩
      have hj : j - i = (j - (i + 1)) + 1 := by omega
      rw [hj]
      simpa using hget

end

/-- Helper: a string is nonempty iff its character list is. -/
theorem str_ne_empty_iff (s : String) : s ≠ "" ↔ s.data ≠ [] := by
  constructor
  · intro h hc
    exact h (String.ext hc)
  · intro h hc
    subst hc
    exact h rfl

/-- Helper: `keyOk` keys are nonempty. -/
theorem keyOk_ne_empty {k : String} (h : keyOk k = true) : k ≠ "" := by
  simp only [keyOk, Bool.and_eq_true, Bool.not_eq_true'] at h
  intro hc
  subst hc
  simp [String.isEmpty] at h

/-- Helper: `keyOk` keys are dot-free. -/
theorem keyOk_dotfree {k : String} (h : keyOk k = true) :
    k.data.contains '.' = false := by
  simp only [keyOk, Bool.and_eq_true, Bool.not_eq_true'] at h
  exact h.2

/-- Helper: decimal tokens are valid keys (nonempty, dot-free). -/
theorem keyOk_natToString (n : Nat) : keyOk (toString n) = true := by
  simp only [keyOk, Bool.and_eq_true, Bool.not_eq_true']
  obtain ⟨hne, hdot⟩ := decDigits_ok n
  constructor
  · rw [Bool.eq_false_iff]
    intro hemp
    have hz : toString n = "" := (String.isEmpty_iff _).mp hemp
    have : (toString n).data ≠ [] := by rw [natToString_data]; exact hne
    rw [hz] at this
    exact this rfl
  · rw [natToString_data]
    exact hdot

/-- Helper: character-level view of appending a dot and a token. -/
theorem data_dot_append (pp t : String) :
    (pp ++ "." ++ t).data = pp.data ++ '.' :: t.data := by
  have h : (pp ++ "." ++ t).data = (pp.data ++ ['.']) ++ t.data := rfl
  rw [h, List.append_assoc]
  rfl

/-- Helper: for a nonempty prefix, one rendering step appends a dot and
the token. -/
theorem extendPath_eq (pp : String) (hp : pp ≠ "") (e : PElem) :
    extendPath pp e = pp ++ "." ++ tokenOf e := by
  cases e with
  | key k => simp [extendPath, childPath, tokenOf, hp]
  | idx i => simp [extendPath, tokenOf]

/-- Helper: rendering a path from a nonempty prefix produces the prefix
followed by the dot-chunks of the tokens. -/
theorem renderPathFrom_data : ∀ (P : Path) (pp : String), pp ≠ "" →
    (renderPathFrom pp P).data = pp.data ++ dotChunks (P.map tokenOf) := by
  intro P
  induction P with
  | nil => intro pp _; simp [renderPathFrom, dotChunks]
  | cons e P ih =>
    intro pp hp
    rw [renderPathFrom_cons, extendPath_eq pp hp e]
    have hne : pp ++ "." ++ tokenOf e ≠ "" := by
      rw [str_ne_empty_iff, data_dot_append]
      simp
    rw [ih _ hne, data_dot_append]
    simp [dotChunks, List.map_cons]

/-- Helper: dot-chunks are empty or dot-headed. -/
theorem dotChunks_shape (ts : List String) :
    dotChunks ts = [] ∨ ∃ t, dotChunks ts = '.' :: t := by
  cases ts with
  | nil => exact Or.inl rfl
  | cons t ts => exact Or.inr ⟨t.data ++ dotChunks ts, rfl⟩

/-- Helper: two dot-free segments followed by dot-headed (or empty)
remainders split uniquely. -/
theorem dotfree_append_split : ∀ (x1 x2 r1 r2 : List Char),
    '.' ∉ x1 → '.' ∉ x2 →
    (r1 = [] ∨ ∃ t, r1 = '.' :: t) → (r2 = [] ∨ ∃ t, r2 = '.' :: t) →
    x1 ++ r1 = x2 ++ r2 → x1 = x2 ∧ r1 = r2 := by
  intro x1
  induction x1 with
  | nil =>
    intro x2 r1 r2 _ hx2 hr1 hr2 h
    cases x2 with
    | nil => exact ⟨rfl, h⟩
    | cons c2 x2' =>
      simp only [List.nil_append, List.cons_append] at h
      rcases hr1 with hr1 | ⟨t, hr1⟩
      · subst hr1; exact absurd h (by simp)
      · subst hr1
        have : c2 = '.' := by
          have := congrArg (·.head?) h
          simpa using this.symm
        subst this
        exact absurd (List.mem_cons_self ..) hx2
  | cons c1 x1' ih =>
    intro x2 r1 r2 hx1 hx2 hr1 hr2 h
    cases x2 with
    | nil =>
      simp only [List.cons_append, List.nil_append] at h
      rcases hr2 with hr2 | ⟨t, hr2⟩
      · subst hr2; exact absurd h.symm (by simp)
      · subst hr2
        have : c1 = '.' := by
          have := congrArg (·.head?) h
          simpa using this
        subst this
        exact absurd (List.mem_cons_self ..) hx1
    | cons c2 x2' =>
      simp only [List.cons_append, List.cons.injEq] at h
      obtain ⟨hc, h⟩ := h
      subst hc
      have hx1' : '.' ∉ x1' := fun hm => hx1 (List.mem_cons_of_mem _ hm)
      have hx2' : '.' ∉ x2' := fun hm => hx2 (List.mem_cons_of_mem _ hm)
      obtain ⟨h1, h2⟩ := ih x2' r1 r2 hx1' hx2' hr1 hr2 h
      exact ⟨by rw [h1], h2⟩

/-- Helper: dot-chunks of dot-free token lists are injective. -/
theorem dotChunks_inj : ∀ (ts1 ts2 : List String),
    (∀ t ∈ ts1, t.data.contains '.' = false) →
    (∀ t ∈ ts2, t.data.contains '.' = false) →
    dotChunks ts1 = dotChunks ts2 → ts1 = ts2 := by
  intro ts1
  induction ts1 with
  | nil =>
    intro ts2 _ _ h
    cases ts2 with
    | nil => rfl
    | cons t ts => exact absurd h (by simp [dotChunks])
  | cons t1 ts1' ih =>
    intro ts2 h1 h2 h
    cases ts2 with
    | nil => exact absurd h (by simp [dotChunks])
    | cons t2 ts2' =>
      simp only [dotChunks, List.cons_append, List.cons.injEq] at h
      obtain ⟨-, h⟩ := h
      have hd1 : '.' ∉ t1.data :=
        contains_eq_false_iff.mp (h1 t1 (List.mem_cons_self ..))
      have hd2 : '.' ∉ t2.data :=
        contains_eq_false_iff.mp (h2 t2 (List.mem_cons_self ..))
      obtain ⟨he, hc⟩ := dotfree_append_split t1.data t2.data
        (dotChunks ts1') (dotChunks ts2') hd1 hd2
        (dotChunks_shape ts1') (dotChunks_shape ts2') h
      have ht : t1 = t2 := String.ext he
      subst ht
      rw [ih ts2' (fun t ht => h1 t (List.mem_cons_of_mem _ ht))
        (fun t ht => h2 t (List.mem_cons_of_mem _ ht)) hc]

/-- Helper: along an extraction-reachable path all tokens are valid keys
(dict keys by well-formedness, indexes by decimal rendering), and the
value reached is well-formed. -/
theorem elookup_tok_ok : ∀ (P : Path) (v w : Val), wfVal v = true →
    elookupVal v P = some w →
    (∀ e ∈ P, keyOk (tokenOf e) = true) ∧ wfVal w = true := by
  intro P
  induction P with
  | nil =>
    intro v w hwf h
    have : v = w := by simpa [elookupVal] using h
    subst this
    exact ⟨by simp, hwf⟩
  | cons e ps ih =>
    intro v w hwf h
    cases e with
    | key k =>
      cases v with
      | dict es =>
        simp only [elookupVal] at h
        cases hf : assocFind es k with
        | none => rw [hf] at h; exact Option.noConfusion h
        | some u =>
          rw [hf] at h
          simp only [wfVal] at hwf
          obtain ⟨hu, hk⟩ := wf_find hwf hf
          obtain ⟨htoks, hw⟩ := ih u w hu h
          refine ⟨?_, hw⟩
          intro e he
          rcases List.mem_cons.mp he with he | he
          · subst he; exact hk
          · exact htoks e he
      | arr b => simp [elookupVal] at h
      | scalar s => simp [elookupVal] at h
      | plist l =>
        cases l with
        | nil => simp [elookupVal] at h
        | cons e0 tl => cases e0 <;> simp [elookupVal] at h
    | idx i =>
      cases v with
      | plist l =>
        cases l with
        | nil => simp [elookupVal] at h
        | cons e0 tl =>
          cases e0 with
          | dict d0 =>
            simp only [elookupVal] at h
            cases hg : (Val.dict d0 :: tl).get? i with
            | none => rw [hg] at h; exact Option.noConfusion h
            | some u =>
              rw [hg] at h
              simp only [wfVal, Bool.and_eq_true] at hwf
              have hu : wfVal u = true := wf_get hwf.2 hg
              obtain ⟨htoks, hw⟩ := ih u w hu h
              refine ⟨?_, hw⟩
              intro e he
              rcases List.mem_cons.mp he with he | he
              · subst he; exact keyOk_natToString i
              · exact htoks e he
          | arr b => simp [elookupVal] at h
          | scalar s => simp [elookupVal] at h
          | plist m => simp [elookupVal] at h
      | dict es => simp [elookupVal] at h
      | arr b => simp [elookupVal] at h
      | scalar s => simp [elookupVal] at h

/-- Helper: among extraction-reachable paths of one value, the token list
determines the path (dicts force key steps, lists of dicts force index
steps, and decimal rendering is injective). -/
theorem elookup_tok_det : ∀ (P1 : Path) (P2 : Path) (v : Val) (w1 w2 : Val),
    elookupVal v P1 = some w1 → elookupVal v P2 = some w2 →
    P1.map tokenOf = P2.map tokenOf → P1 = P2 := by
  intro P1
  induction P1 with
  | nil =>
    intro P2 v w1 w2 _ _ ht
    cases P2 with
    | nil => rfl
    | cons e2 q2 => simp at ht
  | cons e1 q1 ih =>
    intro P2 v w1 w2 h1 h2 ht
    cases P2 with
    | nil => simp at ht
    | cons e2 q2 =>
      simp only [List.map_cons, List.cons.injEq] at ht
      obtain ⟨hte, htq⟩ := ht
      cases v with
      | dict es =>
        cases e1 with
        | key k1 =>
          cases e2 with
          | key k2 =>
            have hk : k1 = k2 := hte
            subst hk
            simp only [elookupVal] at h1 h2
            cases hf : assocFind es k1 with
            | none => rw [hf] at h1; exact Option.noConfusion h1
            | some u =>
              rw [hf] at h1 h2
              rw [ih q2 u w1 w2 h1 h2 htq]
          | idx j => simp [elookupVal] at h2
        | idx i => simp [elookupVal] at h1
      | plist l =>
        cases l with
        | nil => simp [elookupVal] at h1
        | cons e0 tl =>
          cases e0 with
          | dict d0 =>
            cases e1 with
            | key k1 => simp [elookupVal] at h1
            | idx i =>
              cases e2 with
              | key k2 => simp [elookupVal] at h2
              | idx j =>
                have hij : i = j := natToString_inj i j hte
                subst hij
                simp only [elookupVal] at h1 h2
                cases hg : (Val.dict d0 :: tl).get? i with
                | none => rw [hg] at h1; exact Option.noConfusion h1
                | some u =>
                  rw [hg] at h1 h2
                  rw [ih q2 u w1 w2 h1 h2 htq]
          | arr b => simp [elookupVal] at h1
          | scalar s => simp [elookupVal] at h1
          | plist m => simp [elookupVal] at h1
      | arr b => simp [elookupVal] at h1
      | scalar s => simp [elookupVal] at h1

/-- Helper: rendering from the empty prefix of key-headed paths with
valid tokens is injective down to token lists. -/
theorem render_top_inj (k1 : String) (P1 : Path) (k2 : String) (P2 : Path)
    (hk1 : keyOk k1 = true) (h1 : ∀ e ∈ P1, keyOk (tokenOf e) = true)
    (hk2 : keyOk k2 = true) (h2 : ∀ e ∈ P2, keyOk (tokenOf e) = true)
    (heq : renderPathFrom "" (PElem.key k1 :: P1)
      = renderPathFrom "" (PElem.key k2 :: P2)) :
    k1 = k2 ∧ P1.map tokenOf = P2.map tokenOf := by
  have hstep1 : renderPathFrom "" (PElem.key k1 :: P1)
      = renderPathFrom k1 P1 := by
    rw [renderPathFrom_cons]
    simp [extendPath, childPath]
  have hstep2 : renderPathFrom "" (PElem.key k2 :: P2)
      = renderPathFrom k2 P2 := by
    rw [renderPathFrom_cons]
    simp [extendPath, childPath]
  rw [hstep1, hstep2] at heq
  have hdata := congrArg String.data heq
  rw [renderPathFrom_data P1 k1 (keyOk_ne_empty hk1),
    renderPathFrom_data P2 k2 (keyOk_ne_empty hk2)] at hdata
  obtain ⟨hk, hchunks⟩ := dotfree_append_split k1.data k2.data _ _
    (contains_eq_false_iff.mp (keyOk_dotfree hk1))
    (contains_eq_false_iff.mp (keyOk_dotfree hk2))
    (dotChunks_shape _) (dotChunks_shape _) hdata
  refine ⟨String.ext hk, ?_⟩
  exact dotChunks_inj _ _
    (fun t ht => by
      obtain ⟨e, he, rfl⟩ := List.mem_map.mp ht
      exact keyOk_dotfree (h1 e he))
    (fun t ht => by
      obtain ⟨e, he, rfl⟩ := List.mem_map.mp ht
      exact keyOk_dotfree (h2 e he))
    hchunks

mutual

/-- Helper: collected paths of a well-formed value are pairwise
distinct. -/
theorem collect_nodup_val : ∀ (v : Val), wfVal v = true →
    ((collectPathsVal v).map Prod.fst).Nodup
  | Val.arr a, _ => by simp [collectPathsVal]
  | Val.scalar e, _ => by simp [collectPathsVal]
  | Val.dict es, hwf => by
    simp only [wfVal] at hwf
    exact collect_nodup_entries es hwf
  | Val.plist l, hwf => by
    simp only [wfVal, Bool.and_eq_true] at hwf
    obtain ⟨hhom, hwl⟩ := hwf
    cases l with
    | nil => simp [collectPathsVal]
    | cons e0 tl =>
      cases e0 with
      | dict d0 =>
        simpa [collectPathsVal] using
          collect_nodup_elems (Val.dict d0 :: tl) hwl 0
      | arr b => simp [collectPathsVal]
      | scalar s => simp [collectPathsVal]
      | plist m => simp [collectPathsVal]

/-- Helper: entry-level version of `collect_nodup_val`. -/
theorem collect_nodup_entries : ∀ (es : Entries), wfEntries es = true →
    ((collectPaths es).map Prod.fst).Nodup
  | [], _ => by simp [collectPaths]
  | (k, v) :: es, hwf => by
    simp only [wfEntries, Bool.and_eq_true] at hwf
    obtain ⟨⟨⟨hk, hnc⟩, hv⟩, hes⟩ := hwf
    simp only [collectPaths, List.map_append, List.map_map]
    refine List.Nodup.append ?_ ?_ ?_
    · have hinj : Function.Injective
          (fun P : Path => PElem.key k :: P) := by
        intro a b hab
        exact (List.cons.inj hab).2
      have : (List.map (Prod.fst ∘ fun pa : Path × List Elem =>
          (PElem.key k :: pa.1, pa.2)) (collectPathsVal v))
          = ((collectPathsVal v).map Prod.fst).map
            (fun P => PElem.key k :: P) := by
        rw [List.map_map]
        rfl
      rw [this]
      exact (collect_nodup_val v hv).map hinj
    · exact collect_nodup_entries es hes
    · intro P hP hP'
      simp only [List.mem_map, Function.comp] at hP
      obtain ⟨pa, hpa, hfst⟩ := hP
      obtain ⟨pa', hpa', hfst'⟩ := List.mem_map.mp hP'
      have hhead := collectPaths_head (by
        have : pa' = (pa'.1, pa'.2) := rfl
        rw [this] at hpa'
        exact hpa')
      obtain ⟨k', P', hPeq, hkmem⟩ := hhead
      rw [hfst'] at hPeq
      rw [← hfst] at hPeq
      have : k = k' := (List.cons.inj hPeq).1 |> PElem.key.inj
      subst this
      simp only [Bool.not_eq_true'] at hnc
      exact contains_eq_false_iff.mp hnc hkmem

/-- Helper: element-level version of `collect_nodup_val`. -/
theorem collect_nodup_elems : ∀ (l : List Val), wfList l = true →
    ∀ (i : Nat), ((collectPathsElems l i).map Prod.fst).Nodup
  | [], _, i => by simp [collectPathsElems]
  | hd :: tl, hwf, i => by
    simp only [wfList, Bool.and_eq_true] at hwf
    obtain ⟨hhd, htl⟩ := hwf
    simp only [collectPathsElems, List.map_append, List.map_map]
    refine List.Nodup.append ?_ ?_ ?_
    · have hinj : Function.Injective
          (fun P : Path => PElem.idx i :: P) := by
        intro a b hab
        exact (List.cons.inj hab).2
      have : (List.map (Prod.fst ∘ fun pa : Path × List Elem =>
          (PElem.idx i :: pa.1, pa.2)) (collectPathsVal hd))
          = ((collectPathsVal hd).map Prod.fst).map
            (fun P => PElem.idx i :: P) := by
        rw [List.map_map]
        rfl
      rw [this]
      exact (collect_nodup_val hd hhd).map hinj
    · exact collect_nodup_elems tl htl (i + 1)
    · intro P hP hP'
      simp only [List.mem_map, Function.comp] at hP
      obtain ⟨pa, hpa, hfst⟩ := hP
      obtain ⟨pa', hpa', hfst'⟩ := List.mem_map.mp hP'
      have hhead := collectPathsElems_head (by
        have : pa' = (pa'.1, pa'.2) := rfl
        rw [this] at hpa'
        exact hpa')
      obtain ⟨j, P', w, hPeq, hij, -, -⟩ := hhead
      rw [hfst'] at hPeq
      rw [← hfst] at hPeq
      have : i = j := (List.cons.inj hPeq).1 |> PElem.idx.inj
      omega

end

/-- Helper: collected paths are key-headed with valid tokens, and carry
their array at the reachable position. -/
theorem collect_path_shape {t : Entries} (hwf : wfEntries t = true)
    {P : Path} {a : List Elem} (hm : (P, a) ∈ collectPaths t) :
    (∃ k P', P = PElem.key k :: P') ∧
    (∀ e ∈ P, keyOk (tokenOf e) = true) ∧
    elookupVal (Val.dict t) P = some (Val.arr a) := by
  have hel := collect_sound_entries t hwf P a hm
  obtain ⟨k, P', hP, -⟩ := collectPaths_head hm
  have htok := (elookup_tok_ok P (Val.dict t) (Val.arr a)
    (by simpa [wfVal] using hwf) hel).1
  exact ⟨⟨k, P', hP⟩, htok, hel⟩

/-- Helper: the rendered buffer keys of a well-formed trace are pairwise
distinct. -/
theorem renderedCollect_nodup_keys {t : Entries}
    (hwf : wfEntries t = true) :
    ((renderedCollect t "").map Prod.fst).Nodup := by
  have hmapeq : (renderedCollect t "").map Prod.fst
      = ((collectPaths t).map Prod.fst).map (renderPathFrom "") := by
    simp only [renderedCollect, List.map_map]
    rfl
  rw [hmapeq]
  refine List.Nodup.map_on ?_ (collect_nodup_entries t hwf)
  intro P hP Q hQ heq
  obtain ⟨pa, hpa, hfst⟩ := List.mem_map.mp hP
  obtain ⟨qa, hqa, hfst'⟩ := List.mem_map.mp hQ
  have hpa' : (P, pa.2) ∈ collectPaths t := by
    have : pa = (pa.1, pa.2) := rfl
    rw [this, hfst] at hpa
    exact hpa
  have hqa' : (Q, qa.2) ∈ collectPaths t := by
    have : qa = (qa.1, qa.2) := rfl
    rw [this, hfst'] at hqa
    exact hqa
  obtain ⟨⟨k1, P', hPd⟩, htokP, helP⟩ := collect_path_shape hwf hpa'
  obtain ⟨⟨k2, Q', hQd⟩, htokQ, helQ⟩ := collect_path_shape hwf hqa'
  subst hPd
  subst hQd
  have hk1 : keyOk k1 = true := htokP _ (List.mem_cons_self ..)
  have hk2 : keyOk k2 = true := htokQ _ (List.mem_cons_self ..)
  obtain ⟨hkeq, htokeq⟩ := render_top_inj k1 P' k2 Q' hk1
    (fun e he => htokP e (List.mem_cons_of_mem _ he)) hk2
    (fun e he => htokQ e (List.mem_cons_of_mem _ he)) heq
  subst hkeq
  exact elookup_tok_det _ _ (Val.dict t) _ _ helP helQ
    (by simp [tokenOf, htokeq])

/-- Helper: `assocSet` at a fresh key appends. -/
theorem assocSet_append_of_not_mem {α : Type} {b : List (String × α)}
    {q : String} (v : α) (h : q ∉ b.map Prod.fst) :
    assocSet b q v = b ++ [(q, v)] := by
  induction b with
  | nil => rfl
  | cons hd tl ih =>
    obtain ⟨k0, v0⟩ := hd
    simp only [List.map_cons, List.mem_cons, not_or] at h
    obtain ⟨h1, h2⟩ := h
    simp only [assocSet, if_neg (Ne.symm h1 : ¬k0 = q), List.cons_append]
    rw [ih h2]

/-- Helper: replaying writes with fresh distinct keys appends the
columns. -/
theorem applyBufWrites_fresh : ∀ (ws : List (String × List Elem))
    (b : Buf), (ws.map Prod.fst).Nodup →
    (∀ k ∈ ws.map Prod.fst, k ∉ b.map Prod.fst) →
    applyBufWrites b ws = b ++ ws.map (fun w => (w.1, [w.2])) := by
  intro ws
  induction ws with
  | nil => intro b _ _; simp [applyBufWrites]
  | cons w ws ih =>
    intro b hnd hfresh
    obtain ⟨q, a⟩ := w
    simp only [List.map_cons, List.nodup_cons] at hnd
    have hq : q ∉ b.map Prod.fst := hfresh q (by simp)
    have step : applyBufWrites b ((q, a) :: ws)
        = applyBufWrites (assocSet b q [a]) ws := rfl
    rw [step, assocSet_append_of_not_mem [a] hq,
      ih (b ++ [(q, [a])]) hnd.2 ?_]
    · simp
    · intro k hk
      simp only [List.map_append, List.mem_append, not_or]
      refine ⟨fun hc => hfresh k (by simp [hk]) hc, ?_⟩
      simp only [List.map_cons, List.map_nil, List.mem_singleton]
      intro hc
      subst hc
      exact hnd.1 hk

/-- Helper: the extractor's buffer for a well-formed trace is exactly the
rendered collected writes, each wrapped as a singleton column. -/
theorem buffer_eq {t : Entries} (hwf : wfEntries t = true) :
    applyBufWrites [] (renderedCollect t "")
      = (renderedCollect t "").map (fun w => (w.1, [w.2])) := by
  rw [applyBufWrites_fresh _ [] (renderedCollect_nodup_keys hwf)
    (by simp)]
  simp


/-- Helper: successful prefix stripping characterizes the input. -/
theorem chopPrefix_sound : ∀ (xs ys r : List Char),
    chopPrefix xs ys = some r → ys = xs ++ r := by
  intro xs
  induction xs with
  | nil =>
    intro ys r h
    have hyr : ys = r := by simpa [chopPrefix] using h
    simp [hyr]
  | cons a as ih =>
    intro ys r h
    cases ys with
    | nil => simp [chopPrefix] at h
    | cons b bs =>
      simp only [chopPrefix] at h
      by_cases hab : a = b
      · subst hab
        rw [if_pos rfl] at h
        simp [ih bs r h]
      · rw [if_neg hab] at h
        exact Option.noConfusion h

/-- Helper: stripping an exact prefix succeeds. -/
theorem chopPrefix_complete : ∀ (xs r : List Char),
    chopPrefix xs (xs ++ r) = some r := by
  intro xs
  induction xs with
  | nil => intro r; rfl
  | cons a as ih => intro r; simp [chopPrefix, ih]

/-- Helper: a nonempty dot-free string is a valid key. -/
theorem keyOk_of {k : String} (h1 : k ≠ "")
    (h2 : k.data.contains '.' = false) : keyOk k = true := by
  simp only [keyOk, Bool.and_eq_true, Bool.not_eq_true']
  refine ⟨?_, h2⟩
  rw [Bool.eq_false_iff]
  intro hemp
  exact h1 ((String.isEmpty_iff _).mp hemp)

/-- Helper: what a successful child-key test means. -/
theorem isChildKeyOf_char {pp q k : String}
    (h : isChildKeyOf pp q = some k) :
    q = childPath pp k ∧ keyOk k = true := by
  unfold isChildKeyOf at h
  split at h
  · rename_i hpp
    subst hpp
    split at h
    · rename_i hc
      have hk : q = k := Option.some.inj h
      subst hk
      refine ⟨by simp [childPath], keyOk_of ?_ ?_⟩
      · rw [str_ne_empty_iff]
        exact hc.1
      · simpa using hc.2
    · exact Option.noConfusion h
  · rename_i hpp
    split at h
    · rename_i r hchop
      split at h
      · rename_i hc
        have hk : String.mk r = k := Option.some.inj h
        have hqd : q.data = (pp.data ++ ['.']) ++ r :=
          chopPrefix_sound _ _ _ hchop
        constructor
        · apply String.ext
          rw [hqd]
          simp only [childPath, if_neg hpp]
          rw [data_dot_append, ← hk]
          simp
        · rw [← hk]
          refine keyOk_of ?_ ?_
          · rw [str_ne_empty_iff]
            exact hc.1
          · simpa using hc.2
      · exact Option.noConfusion h
    · exact Option.noConfusion h

/-- Helper: the child-key test recognizes child paths of valid keys. -/
theorem isChildKeyOf_childPath {pp k : String} (hk : keyOk k = true) :
    isChildKeyOf pp (childPath pp k) = some k := by
  have h1 : k.data ≠ [] := by
    rw [← str_ne_empty_iff]
    exact keyOk_ne_empty hk
  have h2 : k.data.contains '.' = false := keyOk_dotfree hk
  have h3 : '.' ∉ k.data := contains_eq_false_iff.mp h2
  by_cases hpp : pp = ""
  · subst hpp
    simp only [isChildKeyOf, childPath, if_pos rfl]
    simp [h1, h2, h3]
  · simp only [isChildKeyOf, childPath, if_neg hpp]
    have hd : (pp ++ "." ++ k).data = (pp.data ++ ['.']) ++ k.data := by
      rw [data_dot_append]
      simp
    rw [hd, chopPrefix_complete]
    simp [h1, h2, h3]

/-- Helper: extraction-reachable lookup splits over path concatenation. -/
theorem elookup_append : ∀ (P Q : Path) (v : Val),
    elookupVal v (P ++ Q) = (elookupVal v P).bind
      (fun u => elookupVal u Q) := by
  intro P
  induction P with
  | nil => intro Q v; simp [elookupVal]
  | cons e P ih =>
    intro Q v
    cases e with
    | key k =>
      cases v with
      | dict es =>
        simp only [List.cons_append, elookupVal]
        cases hf : assocFind es k with
        | none => simp
        | some u => simp [ih Q u]
      | arr b => simp [elookupVal]
      | scalar s => simp [elookupVal]
      | plist l =>
        cases l with
        | nil => simp [elookupVal]
        | cons e0 tl => cases e0 <;> simp [elookupVal]
    | idx i =>
      cases v with
      | plist l =>
        cases l with
        | nil => simp [elookupVal]
        | cons e0 tl =>
          cases e0 with
          | dict d0 =>
            simp only [List.cons_append, elookupVal]
            cases hg : (Val.dict d0 :: tl).get? i with
            | none => simp
            | some u => simp [ih Q u]
          | arr b => simp [elookupVal]
          | scalar s => simp [elookupVal]
          | plist m => simp [elookupVal]
      | dict es => simp [elookupVal]
      | arr b => simp [elookupVal]
      | scalar s => simp [elookupVal]

/-- Helper: paths reachable from a dict are empty or key-headed. -/
theorem elookup_dict_head {d : Entries} {P : Path} {w : Val}
    (h : elookupVal (Val.dict d) P = some w) :
    P = [] ∨ ∃ k P', P = PElem.key k :: P' := by
  cases P with
  | nil => exact Or.inl rfl
  | cons e P' =>
    cases e with
    | key k => exact Or.inr ⟨k, P', rfl⟩
    | idx i => simp [elookupVal] at h

/-- Helper: a token list ending in a given token decomposes the path. -/
theorem tokens_snoc_decomp : ∀ (Q : Path) (ts : List String) (s : String),
    Q.map tokenOf = ts ++ [s] →
    ∃ Q1 e, Q = Q1 ++ [e] ∧ Q1.map tokenOf = ts ∧ tokenOf e = s := by
  intro Q
  induction Q with
  | nil => intro ts s h; simp at h
  | cons e0 Q' ih =>
    intro ts s h
    cases ts with
    | nil =>
      simp only [List.map_cons, List.nil_append, List.cons.injEq] at h
      obtain ⟨h1, h2⟩ := h
      have : Q' = [] := by simpa using congrArg List.length h2
      subst this
      exact ⟨[], e0, by simp, by simp, h1⟩
    | cons t0 ts' =>
      simp only [List.map_cons, List.cons_append, List.cons.injEq] at h
      obtain ⟨h1, h2⟩ := h
      obtain ⟨Q1, e, hQ, hts, hs⟩ := ih ts' s h2
      exact ⟨e0 :: Q1, e, by simp [hQ], by simp [hts, h1], hs⟩


/-- Helper: a hit in the left part of an appended association list. -/
theorem assocFind_append_some {α : Type} {l1 : List (String × α)}
    (l2 : List (String × α)) {k : String} {v : α}
    (h : assocFind l1 k = some v) :
    assocFind (l1 ++ l2) k = some v := by
  induction l1 with
  | nil => simp [assocFind] at h
  | cons hd tl ih =>
    obtain ⟨k0, v0⟩ := hd
    by_cases he : k0 = k
    · subst he
      have h1 : v0 = v := by simpa [assocFind] using h
      subst h1
      simp [assocFind]
    · simp only [assocFind, if_neg he] at h
      simpa [assocFind, if_neg he] using ih h

/-- Helper: a miss in the left part of an appended association list. -/
theorem assocFind_append_none {α : Type} {l1 : List (String × α)}
    (l2 : List (String × α)) {k : String}
    (h : assocFind l1 k = none) :
    assocFind (l1 ++ l2) k = assocFind l2 k := by
  induction l1 with
  | nil => simp [assocFind]
  | cons hd tl ih =>
    obtain ⟨k0, v0⟩ := hd
    by_cases he : k0 = k
    · simp [assocFind, if_pos he] at h
    · simp only [assocFind, if_neg he] at h
      simpa [assocFind, if_neg he] using ih h

/-- Helper: `assocFind` through `canonEntries` canonicalizes the value. -/
theorem canonEntries_find (es : Entries) (k : String) :
    assocFind (canonEntries es) k = (assocFind es k).map canon := by
  induction es with
  | nil => simp [canonEntries, assocFind]
  | cons hd tl ih =>
    obtain ⟨k0, v0⟩ := hd
    by_cases he : k0 = k
    · subst he
      simp [canonEntries, assocFind]
    · simp only [canonEntries, assocFind, if_neg he]
      exact ih

/-- Helper: `canonEntries` preserves keys. -/
theorem canonEntries_keys (es : Entries) :
    (canonEntries es).map Prod.fst = es.map Prod.fst := by
  induction es with
  | nil => rfl
  | cons hd tl ih =>
    obtain ⟨k0, v0⟩ := hd
    simp [canonEntries, ih]

/-- Helper: `canonList` is a map. -/
theorem canonList_eq_map (l : List Val) : canonList l = l.map canon := by
  induction l with
  | nil => rfl
  | cons hd tl ih => simp [canonList, ih]

/-- Helper: stripping keeps a subsequence of the keys. -/
theorem stripEntries_keys_sublist (es : Entries) :
    List.Sublist ((stripEntries es).map Prod.fst) (es.map Prod.fst) := by
  induction es with
  | nil => simp [stripEntries]
  | cons hd tl ih =>
    obtain ⟨k0, v0⟩ := hd
    cases v0 with
    | arr a =>
      simp only [stripEntries, List.map_cons]
      exact ih.cons _
    | scalar e =>
      simp only [stripEntries, List.map_cons]
      exact ih.cons₂ _
    | plist l =>
      simp only [stripEntries, List.map_cons]
      exact ih.cons₂ _
    | dict d =>
      simp only [stripEntries, List.map_cons]
      exact ih.cons₂ _

/-- Helper: `assocFind` on stripped entries drops arrays and strips the
rest (under unique keys). -/
theorem stripEntries_find {es : Entries}
    (hnd : (es.map Prod.fst).Nodup) (k : String) :
    assocFind (stripEntries es) k
      = (assocFind es k).bind fun v =>
          match v with
          | Val.arr _ => none
          | w => some (stripVal w) := by
  induction es with
  | nil => simp [stripEntries, assocFind]
  | cons hd tl ih =>
    obtain ⟨k0, v0⟩ := hd
    simp only [List.map_cons, List.nodup_cons] at hnd
    by_cases he : k0 = k
    · subst he
      have hnone : assocFind (stripEntries tl) k0 = none := by
        rw [assocFind_eq_none_iff]
        intro hmem
        exact hnd.1 ((stripEntries_keys_sublist tl).mem hmem)
      cases v0 with
      | arr a => simpa [stripEntries, assocFind] using hnone
      | scalar e => simp [stripEntries, assocFind]
      | plist l => simp [stripEntries, assocFind]
      | dict d => simp [stripEntries, assocFind]
    · have htl := ih hnd.2
      cases v0 with
      | arr a => simpa [stripEntries, assocFind, if_neg he] using htl
      | scalar e => simpa [stripEntries, assocFind, if_neg he] using htl
      | plist l => simpa [stripEntries, assocFind, if_neg he] using htl
      | dict d => simpa [stripEntries, assocFind, if_neg he] using htl

/-- Helper: `stripElems` is a map. -/
theorem stripElems_eq_map (l : List Val) :
    stripElems l = l.map stripVal := by
  induction l with
  | nil => rfl
  | cons hd tl ih => simp [stripElems, ih]

/-- Helper: indexing into stripped list elements. -/
theorem stripElems_get (l : List Val) (j : Nat) :
    (stripElems l).get? j = (l.get? j).map stripVal := by
  rw [stripElems_eq_map]
  simp [List.get?_eq_getElem?, List.getElem?_map]

/-- Helper: `assocFind` through the kept part of a restored dict. -/
theorem restoreAux_find (es : Entries) (buf : Buf) (pp k : String) :
    assocFind (restoreEntriesAux es buf pp) k
      = (assocFind es k).map fun v =>
          restoreVal v buf (childPath pp k) := by
  induction es with
  | nil => simp [restoreEntriesAux, assocFind]
  | cons hd tl ih =>
    obtain ⟨k0, v0⟩ := hd
    by_cases he : k0 = k
    · subst he
      simp [restoreEntriesAux, assocFind]
    · simp only [restoreEntriesAux, assocFind, if_neg he]
      exact ih

/-- Helper: the kept part of a restored dict preserves keys. -/
theorem restoreAux_keys (es : Entries) (buf : Buf) (pp : String) :
    (restoreEntriesAux es buf pp).map Prod.fst = es.map Prod.fst := by
  induction es with
  | nil => rfl
  | cons hd tl ih =>
    obtain ⟨k0, v0⟩ := hd
    simp [restoreEntriesAux, ih]

/-- Helper: indexing into restored list elements. -/
theorem restoreElems_get (l : List Val) (buf : Buf) (fp : String) :
    ∀ (i j : Nat), (restoreElems l i buf fp).get? j
      = (l.get? j).map fun w =>
          restoreVal w buf (fp ++ "." ++ toString (i + j)) := by
  induction l with
  | nil => intro i j; simp [restoreElems]
  | cons hd tl ih =>
    intro i j
    cases j with
    | zero => simp [restoreElems]
    | succ j =>
      have h1 := ih (i + 1) j
      have h2 : i + 1 + j = i + (j + 1) := by omega
      rw [h2] at h1
      simpa [restoreElems] using h1

/-- Helper: `assocFind` is invariant under permutation given unique
keys. -/
theorem assocFind_perm {α : Type} {l l2 : List (String × α)}
    (hp : l.Perm l2) (hnd : (l.map Prod.fst).Nodup) (k : String) :
    assocFind l k = assocFind l2 k := by
  cases hf : assocFind l2 k with
  | some v =>
    exact assocFind_of_mem hnd (hp.mem_iff.mpr (mem_of_assocFind hf))
  | none =>
    rw [assocFind_eq_none_iff] at hf ⊢
    exact fun hmem => hf ((hp.map Prod.fst).mem_iff.mp hmem)

/-- Helper: key-sorted association lists with unique keys are determined
by their `assocFind` function. -/
theorem keyext {α : Type} : ∀ (l1 l2 : List (String × α)),
    List.Pairwise (fun a b => a.1 ≤ b.1) l1 →
    List.Pairwise (fun a b => a.1 ≤ b.1) l2 →
    (l1.map Prod.fst).Nodup → (l2.map Prod.fst).Nodup →
    (∀ k, assocFind l1 k = assocFind l2 k) → l1 = l2 := by
  intro l1
  induction l1 with
  | nil =>
    intro l2 _ _ _ _ hf
    cases l2 with
    | nil => rfl
    | cons hd2 t2 =>
      obtain ⟨k2, v2⟩ := hd2
      have := hf k2
      simp [assocFind] at this
  | cons hd1 t1 ih =>
    intro l2 hs1 hs2 hn1 hn2 hf
    obtain ⟨k1, v1⟩ := hd1
    cases l2 with
    | nil =>
      have := hf k1
      simp [assocFind] at this
    | cons hd2 t2 =>
      obtain ⟨k2, v2⟩ := hd2
      simp only [List.pairwise_cons] at hs1 hs2
      simp only [List.map_cons, List.nodup_cons] at hn1 hn2
      have hm1 : ((k1, v1) : String × α) ∈ (k2, v2) :: t2 := by
        apply mem_of_assocFind
        rw [← hf k1]
        simp [assocFind]
      have hm2 : ((k2, v2) : String × α) ∈ (k1, v1) :: t1 := by
        apply mem_of_assocFind
        rw [hf k2]
        simp [assocFind]
      have hk : k1 = k2 := by
        by_cases he : k1 = k2
        · exact he
        · have hle1 : k2 ≤ k1 := by
            rcases List.mem_cons.mp hm1 with h | h
            · exact absurd (congrArg Prod.fst h) he
            · exact hs2.1 _ h
          have hle2 : k1 ≤ k2 := by
            rcases List.mem_cons.mp hm2 with h | h
            · exact absurd (congrArg Prod.fst h).symm he
            · exact hs1.1 _ h
          exact le_antisymm hle2 hle1
      subst hk
      have hv : v1 = v2 := by
        have := hf k1
        simpa [assocFind] using this
      subst hv
      have hft : ∀ k, assocFind t1 k = assocFind t2 k := by
        intro k
        by_cases he : k1 = k
        · subst he
          rw [assocFind_eq_none_iff.mpr hn1.1,
            assocFind_eq_none_iff.mpr hn2.1]
        · have := hf k
          simpa [assocFind, if_neg he] using this
      rw [ih t2 hs1.2 hs2.2 hn1.2 hn2.2 hft]

/-- Helper: sorting entries is determined by `assocFind` on lists with
unique keys. -/
theorem sortEntries_eq_of_find {es1 es2 : Entries}
    (h1 : (es1.map Prod.fst).Nodup) (h2 : (es2.map Prod.fst).Nodup)
    (hf : ∀ k, assocFind es1 k = assocFind es2 k) :
    sortEntries es1 = sortEntries es2 := by
  have hp1 : (sortEntries es1).Perm es1 := List.perm_insertionSort _ _
  have hp2 : (sortEntries es2).Perm es2 := List.perm_insertionSort _ _
  have hn1 : ((sortEntries es1).map Prod.fst).Nodup :=
    ((hp1.map Prod.fst).symm.nodup_iff).mp h1
  have hn2 : ((sortEntries es2).map Prod.fst).Nodup :=
    ((hp2.map Prod.fst).symm.nodup_iff).mp h2
  refine keyext _ _ ?_ ?_ hn1 hn2 ?_
  · exact List.sorted_insertionSort _ _
  · exact List.sorted_insertionSort _ _
  · intro k
    rw [assocFind_perm hp1 hn1 k, assocFind_perm hp2 hn2 k]
    exact hf k


/-- Helper: rendering a path extended by a key is a child path. -/
theorem childPath_render (S : Path) (k : String) :
    renderPathFrom "" (S ++ [PElem.key k])
      = childPath (renderPathFrom "" S) k := by
  rw [renderPathFrom_append]
  rfl

/-- Helper: rendering a path extended by an index appends the decimal
index. -/
theorem idxPath_render (S : Path) (i : Nat) :
    renderPathFrom "" (S ++ [PElem.idx i])
      = renderPathFrom "" S ++ "." ++ toString i := by
  rw [renderPathFrom_append]
  rfl

/-- Helper: keys of the single-column buffer built from rendered
writes. -/
theorem bufKeys_eq (ws : List (String × List Elem)) :
    ((ws.map fun x => (x.1, [x.2])).map Prod.fst) = ws.map Prod.fst := by
  induction ws with
  | nil => rfl
  | cons hd tl ih => simp [ih]

/-- Helper: columns of the single-column buffer come from writes. -/
theorem bufcol_mem {ws : List (String × List Elem)} {q : String}
    {c : List (List Elem)}
    (h : (q, c) ∈ ws.map fun x => (x.1, [x.2])) :
    ∃ b, c = [b] ∧ (q, b) ∈ ws := by
  obtain ⟨x, hx, hfx⟩ := List.mem_map.mp h
  obtain ⟨q0, b0⟩ := x
  have h1 : q0 = q := congrArg Prod.fst hfx
  have h2 : [b0] = c := congrArg Prod.snd hfx
  subst h1
  exact ⟨b0, h2.symm, hx⟩

/-- Helper: what membership in the re-added entries means. -/
theorem readded_mem_sound {buf : Buf} {pp k : String} {w : Val}
    (h : (k, w) ∈ readded buf pp) :
    ∃ a, w = Val.arr a ∧ keyOk k = true
      ∧ (childPath pp k, [a]) ∈ buf := by
  simp only [readded, List.mem_filterMap] at h
  obtain ⟨qc, hqc, hf⟩ := h
  obtain ⟨q, c⟩ := qc
  simp only at hf
  cases hick : isChildKeyOf pp q with
  | none => rw [hick] at hf; exact Option.noConfusion hf
  | some k1 =>
    rw [hick] at hf
    cases c with
    | nil => exact Option.noConfusion hf
    | cons a rest =>
      cases rest with
      | cons b rest2 => exact Option.noConfusion hf
      | nil =>
        have h1 : k1 = k := congrArg Prod.fst (Option.some.inj hf)
        have h2 : Val.arr a = w := congrArg Prod.snd (Option.some.inj hf)
        subst h1
        obtain ⟨hq, hkOk⟩ := isChildKeyOf_char hick
        refine ⟨a, h2.symm, hkOk, ?_⟩
        rw [← hq]
        exact hqc

/-- Helper: a buffer column at a child path is re-added. -/
theorem readded_complete {buf : Buf} {pp k : String} {a : List Elem}
    (hk : keyOk k = true) (hmem : (childPath pp k, [a]) ∈ buf) :
    (k, Val.arr a) ∈ readded buf pp := by
  simp only [readded, List.mem_filterMap]
  refine ⟨(childPath pp k, [a]), hmem, ?_⟩
  simp [isChildKeyOf_childPath hk]

/-- Helper: re-added entries have unique keys when the buffer does. -/
theorem readded_keys_nodup {buf : Buf} (pp : String)
    (hnd : (buf.map Prod.fst).Nodup) :
    ((readded buf pp).map Prod.fst).Nodup := by
  induction buf with
  | nil => simp [readded]
  | cons qc rest ih =>
    obtain ⟨q, c⟩ := qc
    simp only [List.map_cons, List.nodup_cons] at hnd
    have ihr := ih hnd.2
    simp only [readded, List.filterMap_cons]
    cases hick : isChildKeyOf pp q with
    | none => exact ihr
    | some k =>
      cases c with
      | nil => exact ihr
      | cons a rest2 =>
        cases rest2 with
        | cons b rest3 => exact ihr
        | nil =>
          simp only [List.map_cons, List.nodup_cons]
          refine ⟨?_, ihr⟩
          intro hkmem
          obtain ⟨x, hx, hfx⟩ := List.mem_map.mp hkmem
          obtain ⟨k2, w⟩ := x
          simp only at hfx
          subst hfx
          have hx4 : ((k2, w) : String × Val) ∈ readded rest pp := hx
          obtain ⟨a2, -, -, hrest⟩ := readded_mem_sound hx4
          obtain ⟨hq, -⟩ := isChildKeyOf_char hick
          rw [hq] at hnd
          exact hnd.1 (List.mem_map_of_mem Prod.fst hrest)


/-- Helper: a key re-added at a reachable dict node was an array entry
of that dict. -/
theorem readded_key_reachable {t : Entries} (hwf : wfEntries t = true)
    {es : Entries} {S : Path}
    (hreach : elookupVal (Val.dict t) S = some (Val.dict es))
    {k : String} {w : Val}
    (hmem : (k, w) ∈ readded
      ((renderedCollect t "").map fun x => (x.1, [x.2]))
      (renderPathFrom "" S)) :
    ∃ a, w = Val.arr a ∧ assocFind es k = some (Val.arr a) := by
  obtain ⟨a, hw, hkOk, hbuf⟩ := readded_mem_sound hmem
  obtain ⟨b, hb, hrc⟩ := bufcol_mem hbuf
  have hab : a = b := by
    injection hb with h1 h2
  subst hab
  simp only [renderedCollect] at hrc
  obtain ⟨pa, hpa, hfx⟩ := List.mem_map.mp hrc
  have hrender : renderPathFrom "" pa.1
      = childPath (renderPathFrom "" S) k := congrArg Prod.fst hfx
  have ha2 : pa.2 = a := congrArg Prod.snd hfx
  have hpe : pa = (pa.1, pa.2) := rfl
  rw [hpe, ha2] at hpa
  obtain ⟨⟨k1, Q1, hQd⟩, htokQ, helQ⟩ := collect_path_shape hwf hpa
  have hwfdt : wfVal (Val.dict t) = true := by simpa [wfVal] using hwf
  obtain ⟨htokS, hwfdes⟩ := elookup_tok_ok S (Val.dict t) (Val.dict es)
    hwfdt hreach
  have heq : renderPathFrom "" pa.1
      = renderPathFrom "" (S ++ [PElem.key k]) := by
    rw [hrender, childPath_render]
  have htoksQ : List.map tokenOf pa.1 = List.map tokenOf S ++ [k] := by
    rcases elookup_dict_head hreach with hS | ⟨s1, S2, hSd⟩
    · subst hS
      rw [hQd] at heq htokQ
      rw [List.nil_append] at heq
      have hk1 : keyOk k1 = true := by
        simpa [tokenOf] using htokQ _ (List.mem_cons_self ..)
      obtain ⟨hk1k, htq⟩ := render_top_inj k1 Q1 k [] hk1
        (fun e he => htokQ e (List.mem_cons_of_mem _ he)) hkOk
        (by simp) heq
      have hQ1 : Q1 = [] := List.map_eq_nil_iff.mp htq
      rw [hQd, hQ1, hk1k]
      simp [tokenOf]
    · rw [hQd] at heq htokQ
      rw [hSd, List.cons_append] at heq
      have hk1 : keyOk k1 = true := by
        simpa [tokenOf] using htokQ _ (List.mem_cons_self ..)
      have hs1 : keyOk s1 = true := by
        have h0 := htokS (PElem.key s1)
          (by rw [hSd]; exact List.mem_cons_self ..)
        simpa [tokenOf] using h0
      have htokS2 : ∀ e ∈ S2 ++ [PElem.key k],
          keyOk (tokenOf e) = true := by
        intro e he
        rcases List.mem_append.mp he with h | h
        · exact htokS e (by rw [hSd]; exact List.mem_cons_of_mem _ h)
        · have he2 : e = PElem.key k := List.mem_singleton.mp h
          subst he2
          simpa [tokenOf] using hkOk
      obtain ⟨hk1s, htq⟩ := render_top_inj k1 Q1 s1 (S2 ++ [PElem.key k])
        hk1 (fun e he => htokQ e (List.mem_cons_of_mem _ he)) hs1
        htokS2 heq
      rw [hQd, hSd]
      simp [List.map_cons, List.map_append, tokenOf, hk1s, htq]
  obtain ⟨Q2, e, hsplit, hQ2toks, htokE⟩ :=
    tokens_snoc_decomp pa.1 (List.map tokenOf S) k htoksQ
  rw [hsplit, elookup_append] at helQ
  rcases Option.bind_eq_some.mp helQ with ⟨u, hu1, hu2⟩
  have hQ2S : Q2 = S :=
    elookup_tok_det Q2 S (Val.dict t) u (Val.dict es) hu1 hreach hQ2toks
  subst hQ2S
  rw [hreach] at hu1
  have hu : u = Val.dict es := (Option.some.inj hu1).symm
  subst hu
  cases e with
  | idx i => simp [elookupVal] at hu2
  | key k2 =>
    have hk2 : k2 = k := by simpa [tokenOf] using htokE
    subst hk2
    cases hfind : assocFind es k2 with
    | none => simp [elookupVal, hfind] at hu2
    | some u2 =>
      have hu2x : u2 = Val.arr a := by
        simpa [elookupVal, hfind] using hu2
      exact ⟨a, hw, by rw [hu2x]⟩

/-- Helper: `assocFind` on the re-added entries at a reachable dict node
recovers exactly the array entries of that dict. -/
theorem readded_find_at {t : Entries} (hwf : wfEntries t = true)
    {es : Entries} {S : Path}
    (hreach : elookupVal (Val.dict t) S = some (Val.dict es))
    (k : String) :
    assocFind (readded ((renderedCollect t "").map fun x => (x.1, [x.2]))
        (renderPathFrom "" S)) k
      = match assocFind es k with
        | some (Val.arr a) => some (Val.arr a)
        | _ => none := by
  have hbufnd : (((renderedCollect t "").map fun x =>
      (x.1, [x.2])).map Prod.fst).Nodup := by
    rw [bufKeys_eq]
    exact renderedCollect_nodup_keys hwf
  have hrnd := readded_keys_nodup (renderPathFrom "" S) hbufnd
  cases hfind : assocFind es k with
  | none =>
    cases hr : assocFind (readded ((renderedCollect t "").map fun x =>
        (x.1, [x.2])) (renderPathFrom "" S)) k with
    | none => exact rfl
    | some w =>
      obtain ⟨a, -, hfind2⟩ := readded_key_reachable hwf hreach
        (mem_of_assocFind hr)
      rw [hfind] at hfind2
      exact Option.noConfusion hfind2
  | some v =>
    cases v with
    | arr a =>
      have hwfes : wfEntries es = true := by
        have h0 := (elookup_tok_ok S (Val.dict t) (Val.dict es)
          (by simpa [wfVal] using hwf) hreach).2
        simpa [wfVal] using h0
      have hkOk : keyOk k = true := (wf_find hwfes hfind).2
      have helx : elookupVal (Val.dict t) (S ++ [PElem.key k])
          = some (Val.arr a) := by
        rw [elookup_append, hreach]
        simp only [Option.some_bind]
        simp [elookupVal, hfind]
      have hQmem : (S ++ [PElem.key k], a) ∈ collectPaths t := by
        have h0 := elookup_mem_collect (S ++ [PElem.key k]) (Val.dict t)
          a helx
        simpa [collectPathsVal] using h0
      have hrc : (childPath (renderPathFrom "" S) k, a)
          ∈ renderedCollect t "" := by
        rw [← childPath_render]
        have h0 := List.mem_map_of_mem
          (fun pa : Path × List Elem => (renderPathFrom "" pa.1, pa.2))
          hQmem
        simpa [renderedCollect] using h0
      have hbufmem : (childPath (renderPathFrom "" S) k, ([a] :
          List (List Elem)))
          ∈ (renderedCollect t "").map fun x => (x.1, [x.2]) := by
        have h0 := List.mem_map_of_mem
          (fun x : String × List Elem => (x.1, [x.2])) hrc
        simpa using h0
      have hmem2 := readded_complete hkOk hbufmem
      exact (assocFind_of_mem hrnd hmem2).trans rfl
    | scalar e0 =>
      cases hr : assocFind (readded ((renderedCollect t "").map fun x =>
          (x.1, [x.2])) (renderPathFrom "" S)) k with
      | none => exact rfl
      | some w =>
        obtain ⟨a, -, hfind2⟩ := readded_key_reachable hwf hreach
          (mem_of_assocFind hr)
        rw [hfind] at hfind2
        simp at hfind2
    | plist l =>
      cases hr : assocFind (readded ((renderedCollect t "").map fun x =>
          (x.1, [x.2])) (renderPathFrom "" S)) k with
      | none => exact rfl
      | some w =>
        obtain ⟨a, -, hfind2⟩ := readded_key_reachable hwf hreach
          (mem_of_assocFind hr)
        rw [hfind] at hfind2
        simp at hfind2
    | dict d =>
      cases hr : assocFind (readded ((renderedCollect t "").map fun x =>
          (x.1, [x.2])) (renderPathFrom "" S)) k with
      | none => exact rfl
      | some w =>
        obtain ⟨a, -, hfind2⟩ := readded_key_reachable hwf hreach
          (mem_of_assocFind hr)
        rw [hfind] at hfind2
        simp at hfind2


/-- Helper: after stripping, the dotted path of an extracted array leads
nowhere. -/
theorem strip_kills : ∀ (P : Path) (v : Val) (a : List Elem),
    wfVal v = true → (∀ b, v ≠ Val.arr b) →
    elookupVal v P = some (Val.arr a) →
    lookupVal (stripVal v) P = none := by
  intro P
  induction P with
  | nil =>
    intro v a hwf hna h
    have hv : v = Val.arr a := by simpa [elookupVal] using h
    exact absurd hv (hna a)
  | cons e ps ih =>
    intro v a hwf hna h
    cases e with
    | key k =>
      cases v with
      | arr b => simp [elookupVal] at h
      | scalar s => simp [elookupVal] at h
      | plist l =>
        cases l with
        | nil => simp [elookupVal] at h
        | cons e0 tl => cases e0 <;> simp [elookupVal] at h
      | dict es =>
        simp only [elookupVal] at h
        cases hf : assocFind es k with
        | none => rw [hf] at h; exact Option.noConfusion h
        | some u =>
          rw [hf] at h
          have hwfes : wfEntries es = true := by simpa [wfVal] using hwf
          have hnd := wfEntries_nodupKeys hwfes
          have hsf := stripEntries_find hnd k
          cases u with
          | arr b =>
            have hfs : assocFind (stripEntries es) k = none := by
              simp [hsf, hf]
            have hgoal : stripVal (Val.dict es)
                = Val.dict (stripEntries es) := by
              simp [stripVal]
            rw [hgoal]
            simp only [lookupVal, hfs]
          | scalar e0 =>
            cases ps <;> simp [elookupVal] at h
          | plist l =>
            have hfs : assocFind (stripEntries es) k
                = some (stripVal (Val.plist l)) := by
              simp [hsf, hf]
            have hwfu : wfVal (Val.plist l) = true :=
              (wf_find hwfes hf).1
            have hrec := ih (Val.plist l) a hwfu
              (fun b hb => Val.noConfusion hb) h
            have hgoal : stripVal (Val.dict es)
                = Val.dict (stripEntries es) := by
              simp [stripVal]
            rw [hgoal]
            simp only [lookupVal, hfs]
            exact hrec
          | dict d =>
            have hfs : assocFind (stripEntries es) k
                = some (stripVal (Val.dict d)) := by
              simp [hsf, hf]
            have hwfu : wfVal (Val.dict d) = true :=
              (wf_find hwfes hf).1
            have hrec := ih (Val.dict d) a hwfu
              (fun b hb => Val.noConfusion hb) h
            have hgoal : stripVal (Val.dict es)
                = Val.dict (stripEntries es) := by
              simp [stripVal]
            rw [hgoal]
            simp only [lookupVal, hfs]
            exact hrec
    | idx i =>
      cases v with
      | arr b => simp [elookupVal] at h
      | scalar s => simp [elookupVal] at h
      | dict es => simp [elookupVal] at h
      | plist l =>
        cases l with
        | nil => simp [elookupVal] at h
        | cons e0 tl =>
          cases e0 with
          | arr b => simp [elookupVal] at h
          | scalar s => simp [elookupVal] at h
          | plist m => simp [elookupVal] at h
          | dict d0 =>
            simp only [elookupVal] at h
            cases hg : (Val.dict d0 :: tl).get? i with
            | none => rw [hg] at h; exact Option.noConfusion h
            | some u =>
              rw [hg] at h
              simp only [wfVal, Bool.and_eq_true] at hwf
              obtain ⟨hall, hwfl⟩ := hwf
              have hwfu : wfVal u = true := wf_get hwfl hg
              have hudict : isDictB u = true :=
                List.all_eq_true.mp hall u (List.get?_mem hg)
              have hna2 : ∀ b, u ≠ Val.arr b := by
                intro b hb
                rw [hb] at hudict
                simp [isDictB] at hudict
              have hrec := ih u a hwfu hna2 h
              have hsg : (stripElems (Val.dict d0 :: tl)).get? i
                  = some (stripVal u) := by
                rw [stripElems_get, hg]
                rfl
              simp only [stripVal, lookupVal, hsg]
              exact hrec


/-- Helper: merging the buffer back into a stripped value restores the
value up to dict ordering, at every extraction-reachable node (fuel
variant for the recursion). -/
theorem restore_canon_fuel : ∀ (n : Nat) (t : Entries),
    wfEntries t = true → ∀ (v : Val), sizeOf v < n → wfVal v = true →
    ∀ (S : Path), elookupVal (Val.dict t) S = some v →
    canon (restoreVal (stripVal v)
      ((renderedCollect t "").map fun x => (x.1, [x.2]))
      (renderPathFrom "" S)) = canon v := by
  intro n
  induction n with
  | zero =>
    intro t _ v hsz
    exact absurd hsz (Nat.not_lt_zero _)
  | succ m ih =>
    intro t hwf v hsz hv S hreach
    cases v with
    | arr b => simp [stripVal, restoreVal]
    | scalar s => simp [stripVal, restoreVal]
    | plist l =>
      cases l with
      | nil => simp [stripVal, restoreVal]
      | cons e0 tl =>
        cases e0 with
        | arr b => simp [stripVal, restoreVal]
        | scalar s => simp [stripVal, restoreVal]
        | plist m2 => simp [stripVal, restoreVal]
        | dict d0 =>
          simp only [wfVal, Bool.and_eq_true] at hv
          obtain ⟨hall, hwfl⟩ := hv
          have hse : stripElems (Val.dict d0 :: tl)
              = Val.dict (stripEntries d0) :: stripElems tl := by
            simp [stripElems, stripVal]
          have hkey : canonList (restoreElems
              (stripElems (Val.dict d0 :: tl)) 0
              ((renderedCollect t "").map fun x => (x.1, [x.2]))
              (renderPathFrom "" S))
              = canonList (Val.dict d0 :: tl) := by
            rw [canonList_eq_map, canonList_eq_map]
            apply List.ext_getElem?
            intro j
            simp only [List.getElem?_map]
            rw [← List.get?_eq_getElem?, ← List.get?_eq_getElem?]
            rw [restoreElems_get, stripElems_get]
            cases hg : (Val.dict d0 :: tl).get? j with
            | none => rfl
            | some w =>
              have hszw : sizeOf w < m := by
                have h1 : sizeOf w < sizeOf (Val.dict d0 :: tl) :=
                  List.sizeOf_lt_of_mem (List.get?_mem hg)
                have h2 : sizeOf (Val.plist (Val.dict d0 :: tl))
                    = 1 + sizeOf (Val.dict d0 :: tl) := by simp
                rw [h2] at hsz
                omega
              have hwfw : wfVal w = true := wf_get hwfl hg
              have hreachw : elookupVal (Val.dict t)
                  (S ++ [PElem.idx j]) = some w := by
                rw [elookup_append, hreach]
                simp only [Option.some_bind, elookupVal, hg]
              have hrec := ih t hwf w hszw hwfw (S ++ [PElem.idx j])
                hreachw
              rw [idxPath_render] at hrec
              simp [hrec]
          have hstrip : stripVal (Val.plist (Val.dict d0 :: tl))
              = Val.plist (stripElems (Val.dict d0 :: tl)) := by
            simp [stripVal]
          rw [hstrip, hse]
          have hrv : restoreVal
              (Val.plist (Val.dict (stripEntries d0) :: stripElems tl))
              ((renderedCollect t "").map fun x => (x.1, [x.2]))
              (renderPathFrom "" S)
              = Val.plist (restoreElems
                  (Val.dict (stripEntries d0) :: stripElems tl) 0
                  ((renderedCollect t "").map fun x => (x.1, [x.2]))
                  (renderPathFrom "" S)) := by
            simp [restoreVal]
          rw [hrv]
          simp only [canon]
          rw [← hse]
          exact congrArg Val.plist hkey
    | dict es =>
      have hwfes : wfEntries es = true := by simpa [wfVal] using hv
      have hnd := wfEntries_nodupKeys hwfes
      have hbufnd : (((renderedCollect t "").map fun x =>
          (x.1, [x.2])).map Prod.fst).Nodup := by
        rw [bufKeys_eq]
        exact renderedCollect_nodup_keys hwf
      have hstrip : stripVal (Val.dict es)
          = Val.dict (stripEntries es) := by
        simp [stripVal]
      have hrv : restoreVal (Val.dict (stripEntries es))
          ((renderedCollect t "").map fun x => (x.1, [x.2]))
          (renderPathFrom "" S)
          = Val.dict (restoreEntriesAux (stripEntries es)
              ((renderedCollect t "").map fun x => (x.1, [x.2]))
              (renderPathFrom "" S)
            ++ readded ((renderedCollect t "").map fun x => (x.1, [x.2]))
              (renderPathFrom "" S)) := by
        simp [restoreVal]
      rw [hstrip, hrv]
      simp only [canon]
      refine congrArg Val.dict ?_
      apply sortEntries_eq_of_find
      · rw [canonEntries_keys, List.map_append]
        apply List.Nodup.append
        · rw [restoreAux_keys]
          exact (stripEntries_keys_sublist es).nodup hnd
        · exact readded_keys_nodup _ hbufnd
        · intro z hz1 hz2
          rw [restoreAux_keys] at hz1
          obtain ⟨y, hy, hyfst⟩ := List.mem_map.mp hz2
          obtain ⟨z2, w⟩ := y
          simp only at hyfst
          subst hyfst
          obtain ⟨a, -, hfind2⟩ := readded_key_reachable hwf hreach hy
          have hz1f : assocFind (stripEntries es) z2 ≠ none := by
            intro hnone
            exact (assocFind_eq_none_iff.mp hnone) hz1
          apply hz1f
          simp [stripEntries_find hnd, hfind2]
      · rw [canonEntries_keys]
        exact hnd
      · intro k
        rw [canonEntries_find, canonEntries_find]
        have hauxf := restoreAux_find (stripEntries es)
          ((renderedCollect t "").map fun x => (x.1, [x.2]))
          (renderPathFrom "" S) k
        have hsf := stripEntries_find hnd k
        have hrf := readded_find_at hwf hreach k
        cases hfind : assocFind es k with
        | none =>
          simp only [hfind, Option.none_bind] at hsf
          simp only [hfind] at hrf
          have h2 : assocFind (restoreEntriesAux (stripEntries es)
              ((renderedCollect t "").map fun x => (x.1, [x.2]))
              (renderPathFrom "" S)) k = none := by
            simp [hauxf, hsf]
          rw [assocFind_append_none _ h2, hrf]
        | some v0 =>
          cases v0 with
          | arr a =>
            simp only [hfind] at hrf
            have hsf2 : assocFind (stripEntries es) k = none := by
              simp [hsf, hfind]
            have h2 : assocFind (restoreEntriesAux (stripEntries es)
                ((renderedCollect t "").map fun x => (x.1, [x.2]))
                (renderPathFrom "" S)) k = none := by
              simp [hauxf, hsf2]
            rw [assocFind_append_none _ h2, hrf]
          | scalar s =>
            have hsf2 : assocFind (stripEntries es) k
                = some (stripVal (Val.scalar s)) := by
              simp [hsf, hfind]
            have h2 : assocFind (restoreEntriesAux (stripEntries es)
                ((renderedCollect t "").map fun x => (x.1, [x.2]))
                (renderPathFrom "" S)) k
                = some (restoreVal (stripVal (Val.scalar s))
                    ((renderedCollect t "").map fun x => (x.1, [x.2]))
                    (childPath (renderPathFrom "" S) k)) := by
              simp [hauxf, hsf2]
            rw [assocFind_append_some _ h2]
            have hmem := mem_of_assocFind hfind
            have hszv : sizeOf (Val.scalar s) < m := by
              have h1 : sizeOf ((k, Val.scalar s) : String × Val)
                  < sizeOf es := List.sizeOf_lt_of_mem hmem
              have h3 : sizeOf (Val.dict es) = 1 + sizeOf es := by simp
              rw [h3] at hsz
              simp only [Prod.mk.sizeOf_spec] at h1
              omega
            have hwfv0 : wfVal (Val.scalar s) = true :=
              (wf_find hwfes hfind).1
            have hreach2 : elookupVal (Val.dict t) (S ++ [PElem.key k])
                = some (Val.scalar s) := by
              rw [elookup_append, hreach]
              simp only [Option.some_bind]
              simp [elookupVal, hfind]
            have hrec := ih t hwf (Val.scalar s) hszv hwfv0
              (S ++ [PElem.key k]) hreach2
            rw [childPath_render] at hrec
            simp [hrec]
          | plist l2 =>
            have hsf2 : assocFind (stripEntries es) k
                = some (stripVal (Val.plist l2)) := by
              simp [hsf, hfind]
            have h2 : assocFind (restoreEntriesAux (stripEntries es)
                ((renderedCollect t "").map fun x => (x.1, [x.2]))
                (renderPathFrom "" S)) k
                = some (restoreVal (stripVal (Val.plist l2))
                    ((renderedCollect t "").map fun x => (x.1, [x.2]))
                    (childPath (renderPathFrom "" S) k)) := by
              simp [hauxf, hsf2]
            rw [assocFind_append_some _ h2]
            have hmem := mem_of_assocFind hfind
            have hszv : sizeOf (Val.plist l2) < m := by
              have h1 : sizeOf ((k, Val.plist l2) : String × Val)
                  < sizeOf es := List.sizeOf_lt_of_mem hmem
              have h3 : sizeOf (Val.dict es) = 1 + sizeOf es := by simp
              rw [h3] at hsz
              simp only [Prod.mk.sizeOf_spec] at h1
              omega
            have hwfv0 : wfVal (Val.plist l2) = true :=
              (wf_find hwfes hfind).1
            have hreach2 : elookupVal (Val.dict t) (S ++ [PElem.key k])
                = some (Val.plist l2) := by
              rw [elookup_append, hreach]
              simp only [Option.some_bind]
              simp [elookupVal, hfind]
            have hrec := ih t hwf (Val.plist l2) hszv hwfv0
              (S ++ [PElem.key k]) hreach2
            rw [childPath_render] at hrec
            simp [hrec]
          | dict d =>
            have hsf2 : assocFind (stripEntries es) k
                = some (stripVal (Val.dict d)) := by
              simp [hsf, hfind]
            have h2 : assocFind (restoreEntriesAux (stripEntries es)
                ((renderedCollect t "").map fun x => (x.1, [x.2]))
                (renderPathFrom "" S)) k
                = some (restoreVal (stripVal (Val.dict d))
                    ((renderedCollect t "").map fun x => (x.1, [x.2]))
                    (childPath (renderPathFrom "" S) k)) := by
              simp [hauxf, hsf2]
            rw [assocFind_append_some _ h2]
            have hmem := mem_of_assocFind hfind
            have hszv : sizeOf (Val.dict d) < m := by
              have h1 : sizeOf ((k, Val.dict d) : String × Val)
                  < sizeOf es := List.sizeOf_lt_of_mem hmem
              have h3 : sizeOf (Val.dict es) = 1 + sizeOf es := by simp
              rw [h3] at hsz
              simp only [Prod.mk.sizeOf_spec] at h1
              omega
            have hwfv0 : wfVal (Val.dict d) = true :=
              (wf_find hwfes hfind).1
            have hreach2 : elookupVal (Val.dict t) (S ++ [PElem.key k])
                = some (Val.dict d) := by
              rw [elookup_append, hreach]
              simp only [Option.some_bind]
              simp [elookupVal, hfind]
            have hrec := ih t hwf (Val.dict d) hszv hwfv0
              (S ++ [PElem.key k]) hreach2
            rw [childPath_render] at hrec
            simp [hrec]

/-- Helper: merging the buffer back into the stripped trace restores the
trace up to dict ordering. -/
theorem restore_canon {t : Entries} (hwf : wfEntries t = true) :
    canon (Val.dict (restoreEntries (stripEntries t)
      ((renderedCollect t "").map fun x => (x.1, [x.2])) ""))
      = canon (Val.dict t) := by
  have h := restore_canon_fuel (sizeOf (Val.dict t) + 1) t hwf
    (Val.dict t) (Nat.lt_succ_self _) (by simpa [wfVal] using hwf)
    [] (by simp [elookupVal])
  have hstrip : stripVal (Val.dict t) = Val.dict (stripEntries t) := by
    simp [stripVal]
  rw [hstrip] at h
  rw [show renderPathFrom "" ([] : Path) = "" from rfl] at h
  have hrv : restoreVal (Val.dict (stripEntries t))
      ((renderedCollect t "").map fun x => (x.1, [x.2])) ""
      = Val.dict (restoreEntriesAux (stripEntries t)
          ((renderedCollect t "").map fun x => (x.1, [x.2])) ""
        ++ readded ((renderedCollect t "").map fun x => (x.1, [x.2]))
          "") := by
    simp [restoreVal]
  rw [hrv] at h
  rw [show restoreEntries (stripEntries t)
      ((renderedCollect t "").map fun x => (x.1, [x.2])) ""
      = restoreEntriesAux (stripEntries t)
          ((renderedCollect t "").map fun x => (x.1, [x.2])) ""
        ++ readded ((renderedCollect t "").map fun x => (x.1, [x.2]))
          "" from rfl]
  exact h


/-- C5: for every well-formed trace holding a bulk array at a structural
path (reachable through nested dicts and lists of dicts), extraction
succeeds; afterwards the stripped trace has no value at that path, the
buffer maps the dotted rendering of the path to a single-element list
wrapping the original array, and merging the buffer back into the
stripped trace reconstructs the original trace content (equal up to dict
key ordering). -/
theorem c5_extract_roundtrip (t : Entries) (P : Path) (a : List Elem)
    (hwf : wfEntries t = true)
    (hP : elookupVal (Val.dict t) P = some (Val.arr a)) :
    ∃ t2 buf, gsEntries t [] "" = some (t2, buf)
      ∧ lookupVal (Val.dict t2) P = none
      ∧ assocFind buf (renderPathFrom "" P) = some [a]
      ∧ canon (Val.dict (restoreEntries t2 buf ""))
        = canon (Val.dict t) := by
  refine ⟨stripEntries t,
    (renderedCollect t "").map fun x => (x.1, [x.2]), ?_, ?_, ?_, ?_⟩
  · rw [gsEntries_spec t hwf [] "", buffer_eq hwf]
  · have h := strip_kills P (Val.dict t) a (by simpa [wfVal] using hwf)
      (fun b hb => Val.noConfusion hb) hP
    have hstrip : stripVal (Val.dict t) = Val.dict (stripEntries t) := by
      simp [stripVal]
    rw [hstrip] at h
    exact h
  · have hQmem : (P, a) ∈ collectPaths t := by
      have h0 := elookup_mem_collect P (Val.dict t) a hP
      simpa [collectPathsVal] using h0
    have hrc : (renderPathFrom "" P, a) ∈ renderedCollect t "" := by
      have h0 := List.mem_map_of_mem
        (fun pa : Path × List Elem => (renderPathFrom "" pa.1, pa.2))
        hQmem
      simpa [renderedCollect] using h0
    have hbm : (renderPathFrom "" P, ([a] : List (List Elem)))
        ∈ (renderedCollect t "").map fun x => (x.1, [x.2]) := by
      have h0 := List.mem_map_of_mem
        (fun x : String × List Elem => (x.1, [x.2])) hrc
      simpa using h0
    have hbufnd : (((renderedCollect t "").map fun x =>
        (x.1, [x.2])).map Prod.fst).Nodup := by
      rw [bufKeys_eq]
      exact renderedCollect_nodup_keys hwf
    exact assocFind_of_mem hbufnd hbm
  · exact restore_canon hwf

/-- Witness for C5 at a one-entry trace with a top-level array. -/
theorem c5_extract_roundtrip_witness :
    wfEntries [("y", Val.arr [Elem.int 1])] = true
    ∧ elookupVal (Val.dict [("y", Val.arr [Elem.int 1])]) [PElem.key "y"]
      = some (Val.arr [Elem.int 1])
    ∧ ∃ t2 buf,
        gsEntries [("y", Val.arr [Elem.int 1])] [] "" = some (t2, buf)
        ∧ lookupVal (Val.dict t2) [PElem.key "y"] = none
        ∧ assocFind buf (renderPathFrom "" [PElem.key "y"])
          = some [[Elem.int 1]]
        ∧ canon (Val.dict (restoreEntries t2 buf ""))
          = canon (Val.dict [("y", Val.arr [Elem.int 1])]) :=
  ⟨by simp [wfEntries, wfVal, keyOk]; decide,
   by simp [elookupVal, assocFind],
   c5_extract_roundtrip [("y", Val.arr [Elem.int 1])] [PElem.key "y"]
     [Elem.int 1] (by simp [wfEntries, wfVal, keyOk]; decide)
     (by simp [elookupVal, assocFind])⟩

end PanelPlotly
